import Mathlib

/-!
# Traffic-intersection simulation (`intersection.c`)

A shallow embedding of `supply_arrivals` (the arrival feed) and `manage_light`
(the lane controller) together with the shared state they synchronise on: the
sixteen arrival semaphores, the four side mutexes and the arrival storage.

* Arrays are modelled by their row-major flat index, the way C lays them out:
  `semaphores[s][d]` is cell `s * 4 + d`, `curr_arrivals[s][d][k]` is cell
  `(s * 4 + d) * 20 + k`.
* The concurrent program is an interleaving semantics: a schedule is a list of
  thread choices, each choice runs one statement of that thread, and a thread
  that is blocked (or has returned) does not move.
* Every library call the threads make is logged in `State.trace`, in the order
  the calls happen.
* An access through an index outside the bounds of an array is undefined
  behaviour in C. The model performs it on the cell with that flat index and
  sets `State.ub`; from then on the state stands for no state of the program,
  because the access may have changed any other object.
* `main` is assumed to have created all seventeen threads; a semaphore value is
  an unbounded natural number.
-/

namespace Intersection

/-! ## Data model -/

/-- Modelled from the spec: the `Arrival` record of `arrivals.h`, which is not
part of the sources; the spec describes an arrival record `{side, direction,
time}`, and these are the three fields `supply_arrivals` reads. `side` and
`direction` are the enumeration values used as array indices, `time` is a C
`int`. -/
structure Arrival where
  side : Nat
  direction : Nat
  time : Int
deriving DecidableEq, Repr

/-- The all-zero record a `static` array cell holds before it is written. -/
def Arrival.zero : Arrival := ⟨0, 0, 0⟩

/-- Flat index of cell `[side][direction]` in an array declared `[4][4]`
(`semaphores`, `num_curr_arrivals`). -/
def laneIdx (side direction : Nat) : Nat := side * 4 + direction

/-- Flat index of cell `[side][direction][k]` of `curr_arrivals[4][4][20]`. -/
def slotIdx (side direction k : Nat) : Nat := (side * 4 + direction) * 20 + k

/-- Pointwise update of an array modelled as a function of its flat index. -/
def upd {α : Type} (f : Nat → α) (a : Nat) (v : α) : Nat → α :=
  fun b => if b = a then v else f b

/-- Wrap an integer into the range of a 32-bit `int`. -/
def wrapInt (x : Int) : Int := (x + 2 ^ 31) % 2 ^ 32 - 2 ^ 31

/-- The `int` expression `arrival.time - t` of line 49. -/
def delay (time t : Int) : Int := wrapInt (time - t)

/-- Conversion of an `int` to the `unsigned int` parameter of `sleep`. -/
def toUnsigned (x : Int) : Nat := (x % 2 ^ 32).toNat

/-- Calls a lane controller makes, in the order of one loop iteration:
`sem_wait`, `pthread_mutex_lock`, the GREEN print, the RED print,
`pthread_mutex_unlock`. -/
inductive LaneAct
  | wait
  | lock
  | green
  | red
  | unlock
deriving DecidableEq, Repr

/-- Observable calls of the threads. -/
inductive Event
  /-- The call `sleep(secs)` of the feed, line 49. -/
  | sleep (secs : Nat)
  /-- The write `curr_arrivals[side][direction][k] = a` of the feed, line 52. -/
  | store (side direction k : Nat) (a : Arrival)
  /-- The call `sem_post(&semaphores[..])` of the feed on flat cell `sem`, line 55. -/
  | post (sem : Nat)
  /-- A call made by the controller of lane `lane`. -/
  | ctrl (lane : Nat) (act : LaneAct)
deriving DecidableEq, Repr

/-- Position of a lane controller inside `manage_light`. -/
inductive Pc
  /-- About to call `sem_wait`, line 85. -/
  | semWait
  /-- About to call `pthread_mutex_lock`, line 88. -/
  | lock
  /-- About to print GREEN, line 91. -/
  | green
  /-- About to call `sleep(CROSS_TIME)`, line 92. -/
  | cross
  /-- About to print RED, line 95. -/
  | red
  /-- About to call `pthread_mutex_unlock`, line 98. -/
  | unlock
  /-- At `return (0)`, line 101: the thread has left the loop. -/
  | ret
deriving DecidableEq, Repr

/-- Position of the feed inside `supply_arrivals`. -/
inductive FeedPc
  /-- At the loop test of line 44, then lines 47 to 50. -/
  | loop
  /-- At lines 52 and 53. -/
  | store
  /-- At line 55, followed by `i++`. -/
  | post
  /-- At `return(0)`, line 58. -/
  | ret
deriving DecidableEq, Repr

/-- Whole-program state: the locals of `supply_arrivals`, the globals, and the
position of each of the sixteen lane controllers. -/
structure State where
  /-- Loop index `i` of `supply_arrivals`. -/
  i : Nat
  fpc : FeedPc
  /-- Local `t` of `supply_arrivals`. -/
  t : Int
  /-- Local `num_curr_arrivals[4][4]`, by flat index. -/
  num_curr_arrivals : Nat → Nat
  /-- Global `curr_arrivals[4][4][20]`, by flat index. -/
  curr_arrivals : Nat → Arrival
  /-- Global `semaphores[4][4]`, by flat index: the semaphore values. -/
  semaphores : Nat → Nat
  /-- Modelled from the spec: the array `mutexes` that `manage_light` and `main`
  use is declared outside the sources; `main` initialises cells 0..3, one per
  side (the spec's per-side locks). A cell holds the lane id of its owner. -/
  mutexes : Nat → Option Nat
  pc : Nat → Pc
  trace : List Event
  /-- An access outside the bounds of an array has happened. -/
  ub : Bool

/-- State after `main` has initialised the semaphores to 0 (line 118) and the
mutexes (line 125) and has created the seventeen threads. -/
def State.start : State where
  i := 0
  fpc := FeedPc.loop
  t := 0
  num_curr_arrivals := fun _ => 0
  curr_arrivals := fun _ => Arrival.zero
  semaphores := fun _ => 0
  mutexes := fun _ => none
  pc := fun _ => Pc.semWait
  trace := []
  ub := false

/-! ## `supply_arrivals` -/

/-- Lines 47 to 50: sleep until the arrival is due and advance `t`. -/
def feedSleep (a : Arrival) (s : State) : State :=
  { s with
    t := a.time
    fpc := FeedPc.store
    trace := s.trace ++ [Event.sleep (toUnsigned (delay a.time s.t))] }

/-- The index triple `[side][direction][k]` is within `curr_arrivals[4][4][20]`. -/
def inBounds (side direction k : Nat) : Bool :=
  decide (side < 4) && decide (direction < 4) && decide (k < 20)

/-- Lines 52 and 53: store the arrival and count it. The source has no bound
check: the write goes to the cell the indices compute, and it is undefined
behaviour when the indices are not within the array. -/
def feedStore (a : Arrival) (s : State) : State :=
  let k := s.num_curr_arrivals (laneIdx a.side a.direction)
  { s with
    curr_arrivals := upd s.curr_arrivals (slotIdx a.side a.direction k) a
    num_curr_arrivals := upd s.num_curr_arrivals (laneIdx a.side a.direction) (k + 1)
    fpc := FeedPc.post
    trace := s.trace ++ [Event.store a.side a.direction k a]
    ub := s.ub || !inBounds a.side a.direction k }

/-- Line 55 and the loop increment: signal the lane and go to the next entry.
Indexing `semaphores[4][4]` with a side or direction above 3 is out of bounds. -/
def feedPost (a : Arrival) (s : State) : State :=
  { s with
    semaphores := upd s.semaphores (laneIdx a.side a.direction)
      (s.semaphores (laneIdx a.side a.direction) + 1)
    i := s.i + 1
    fpc := FeedPc.loop
    trace := s.trace ++ [Event.post (laneIdx a.side a.direction)]
    ub := s.ub || !(decide (a.side < 4) && decide (a.direction < 4)) }

/-- One iteration of the loop of `supply_arrivals`. -/
def feedIter (s : State) (a : Arrival) : State :=
  feedPost a (feedStore a (feedSleep a s))

/-- The function `supply_arrivals` run on its own over the list
`input_arrivals`, from state `s` to its `return`. -/
def supply_arrivals (input : List Arrival) (s : State) : State :=
  { input.foldl feedIter s with fpc := FeedPc.ret }

/-- One statement of the feed thread; `none` once it has returned. -/
def stepFeed (input : List Arrival) (s : State) : Option State :=
  match s.fpc with
  | FeedPc.loop =>
    match input[s.i]? with
    | some a => some (feedSleep a s)
    | none => some { s with fpc := FeedPc.ret }
  | FeedPc.store => (input[s.i]?).map (fun a => feedStore a s)
  | FeedPc.post => (input[s.i]?).map (fun a => feedPost a s)
  | FeedPc.ret => none

/-! ## `manage_light` -/

/-- One statement of the controller thread started with `lane_id`; `none` when
the thread is blocked in `sem_wait` or `pthread_mutex_lock`, has returned, or
does not exist (`main` creates the threads 0..15). -/
def stepCtrl (s : State) (lane_id : Nat) : Option State :=
  if lane_id < 16 then
    let side := lane_id / 4
    let direction := lane_id % 4
    match s.pc lane_id with
    | Pc.semWait =>
      if 0 < s.semaphores (laneIdx side direction) then
        some { s with
          semaphores := upd s.semaphores (laneIdx side direction)
            (s.semaphores (laneIdx side direction) - 1)
          pc := upd s.pc lane_id Pc.lock
          trace := s.trace ++ [Event.ctrl lane_id LaneAct.wait] }
      else none
    | Pc.lock =>
      match s.mutexes side with
      | none =>
        some { s with
          mutexes := upd s.mutexes side (some lane_id)
          pc := upd s.pc lane_id Pc.green
          trace := s.trace ++ [Event.ctrl lane_id LaneAct.lock] }
      | some _ => none
    | Pc.green =>
      some { s with
        pc := upd s.pc lane_id Pc.cross
        trace := s.trace ++ [Event.ctrl lane_id LaneAct.green] }
    | Pc.cross => some { s with pc := upd s.pc lane_id Pc.red }
    | Pc.red =>
      some { s with
        pc := upd s.pc lane_id Pc.unlock
        trace := s.trace ++ [Event.ctrl lane_id LaneAct.red] }
    | Pc.unlock =>
      some { s with
        mutexes := upd s.mutexes side none
        pc := upd s.pc lane_id Pc.semWait
        trace := s.trace ++ [Event.ctrl lane_id LaneAct.unlock] }
    | Pc.ret => none
  else none

/-! ## Interleaving semantics -/

/-- A scheduling choice: which thread runs its next statement. -/
inductive Thread
  | feed
  | light (lane_id : Nat)
deriving DecidableEq, Repr

/-- The next statement of the chosen thread, if it can run. -/
def step (input : List Arrival) (s : State) : Thread → Option State
  | Thread.feed => stepFeed input s
  | Thread.light l => stepCtrl s l

/-- Run one scheduling choice; a thread that cannot run leaves the state as it is. -/
def next (input : List Arrival) (s : State) (th : Thread) : State :=
  (step input s th).getD s

/-- The state reached from the start state under the schedule `sched`. The
reachable states of the program on `input` are the states `exec input sched`. -/
def exec (input : List Arrival) (sched : List Thread) : State :=
  sched.foldl (next input) State.start

/-! ## Observations on the trace -/

/-- The calls of lane `l`, in order. -/
def laneTrace (l : Nat) (tr : List Event) : List LaneAct :=
  tr.filterMap (fun e => match e with
    | Event.ctrl l' a => if l' = l then some a else none
    | _ => none)

/-- One loop iteration of a lane controller. -/
def cycle : List LaneAct :=
  [LaneAct.wait, LaneAct.lock, LaneAct.green, LaneAct.red, LaneAct.unlock]

/-- The calls of `k` complete iterations. -/
def cycles : Nat → List LaneAct
  | 0 => []
  | k + 1 => cycles k ++ cycle

/-- Number of calls of the current iteration a controller at `pc` has made. -/
def Pc.done : Pc → Nat
  | Pc.semWait => 0
  | Pc.lock => 1
  | Pc.green => 2
  | Pc.cross => 3
  | Pc.red => 3
  | Pc.unlock => 4
  | Pc.ret => 0

/-- How often lane `l` has made the call `a`. -/
def calls (l : Nat) (a : LaneAct) (s : State) : Nat :=
  s.trace.count (Event.ctrl l a)

/-- How often the feed has posted the semaphore with flat index `l`. -/
def posts (l : Nat) (s : State) : Nat := s.trace.count (Event.post l)

/-- Lane `l` is GREEN: it has printed GREEN more often than RED. -/
def isGreen (s : State) (l : Nat) : Prop :=
  calls l LaneAct.red s < calls l LaneAct.green s

instance (s : State) (l : Nat) : Decidable (isGreen s l) := by
  unfold isGreen; infer_instance

/-- The controller at `pc` is between its lock and its unlock. -/
def Pc.holding : Pc → Bool
  | Pc.green => true
  | Pc.cross => true
  | Pc.red => true
  | Pc.unlock => true
  | _ => false

/-- The arguments the feed passed to `sleep`, in order. -/
def sleepArgs (tr : List Event) : List Nat :=
  tr.filterMap (fun e => match e with
    | Event.sleep n => some n
    | _ => none)

/-- The cells `(side, direction, k)` of `curr_arrivals` the feed wrote, in order. -/
def storeIdx (tr : List Event) : List (Nat × Nat × Nat) :=
  tr.filterMap (fun e => match e with
    | Event.store s d k _ => some (s, d, k)
    | _ => none)

/-- The arrival is for the entry lane on side `s` for direction `d`. -/
def onLane (s d : Nat) (a : Arrival) : Bool := a.side = s && a.direction = d

/-- The entries of the schedule for lane `(s, d)`, in schedule order. -/
def laneArrivals (s d : Nat) (input : List Arrival) : List Arrival :=
  input.filter (onLane s d)

/-- The indices `k` of the writes to `curr_arrivals[s][d][k]`, in order. -/
def laneWrites (s d : Nat) (tr : List Event) : List Nat :=
  ((storeIdx tr).filter (fun w => w.1 = s && w.2.1 = d)).map (fun w => w.2.2)

/-- A schedule with a burst on lane (0, 1) and one arrival on lane (2, 1). -/
def burstSchedule : List Arrival :=
  [⟨0, 1, 0⟩, ⟨2, 1, 0⟩, ⟨0, 1, 1⟩, ⟨0, 1, 3⟩]

/-- A schedule with arrivals at times 0, 2, 2 and 7. -/
def timedSchedule : List Arrival :=
  [⟨0, 1, 0⟩, ⟨2, 1, 2⟩, ⟨0, 1, 2⟩, ⟨3, 0, 7⟩]

/-- A schedule of `n` arrivals at time 0, all for lane `(s, d)`. -/
def sameLane (s d n : Nat) : List Arrival := List.replicate n ⟨s, d, 0⟩

/-- The arrivals the feed stored (line 52), each with the simulated clock at
the moment of the store: the sum of the arguments of the `sleep` calls the feed
made before it, starting from `clock`. -/
def deliveries (clock : Nat) : List Event → List (Nat × Arrival)
  | [] => []
  | Event.sleep n :: rest => deliveries (clock + n) rest
  | Event.store _ _ _ a :: rest => (clock, a) :: deliveries clock rest
  | Event.post _ :: rest => deliveries clock rest
  | Event.ctrl _ _ :: rest => deliveries clock rest

/-- The semaphores the feed posted (line 55), each with the simulated clock at
the moment of the post. -/
def signals (clock : Nat) : List Event → List (Nat × Nat)
  | [] => []
  | Event.sleep n :: rest => signals (clock + n) rest
  | Event.store _ _ _ _ :: rest => signals clock rest
  | Event.post m :: rest => (clock, m) :: signals clock rest
  | Event.ctrl _ _ :: rest => signals clock rest

/-- Scheduled time of entry `i`. -/
def timeAt (input : List Arrival) (i : Nat) : Int := (input.map Arrival.time).getD i 0

/-- Scheduled time of the entry before entry `i`, and 0 before the first entry. -/
def prevTime (input : List Arrival) (i : Nat) : Int :=
  if i = 0 then 0 else timeAt input (i - 1)

/-- Differences of consecutive scheduled times, starting from time `t`. -/
def gaps (t : Int) : List Arrival → List Nat
  | [] => []
  | a :: rest => (a.time - t).toNat :: gaps a.time rest

/-- Ownership invariant of the side mutexes: a mutex is owned only by a
controller of its side that is between lock and unlock, and a controller
between lock and unlock owns the mutex of its side. -/
def OwnerInv (s : State) : Prop :=
  (∀ m l, s.mutexes m = some l → l < 16 ∧ m = l / 4 ∧ (s.pc l).holding = true) ∧
  (∀ l, (s.pc l).holding = true → s.mutexes (l / 4) = some l)

/-- Shape of the calls of every lane: complete iterations followed by the
calls of the current iteration. -/
def ShapeInv (s : State) : Prop :=
  ∀ l, s.pc l ≠ Pc.ret ∧ ∃ k, laneTrace l s.trace = cycles k ++ cycle.take (s.pc l).done

/-- The schedule with one arrival at time 0 for lane `i` and one for lane `j`. -/
def pairSchedule (i j : Nat) : List Arrival := [⟨i / 4, i % 4, 0⟩, ⟨j / 4, j % 4, 0⟩]

/-- The feed delivers both arrivals of `pairSchedule`, then the controller of
lane `i` runs up to its sleep, then the controller of lane `j` does. -/
def pairRun (i j : Nat) : List Thread :=
  List.replicate 6 Thread.feed ++ List.replicate 3 (Thread.light i)
    ++ List.replicate 3 (Thread.light j)

/-- Modelled from the spec: the enumeration constants of `arrivals.h`, which is
not part of the sources. The spec names four sides and four movement
directions, used as array indices 0..3; the numbering taken here is
North, East, South, West and Left, Straight, Right, U-turn. -/
def NORTH : Nat := 0

/-- Modelled from the spec: side East, see `NORTH`. -/
def EAST : Nat := 1

/-- Modelled from the spec: side South, see `NORTH`. -/
def SOUTH : Nat := 2

/-- Modelled from the spec: direction Left, see `NORTH`. -/
def LEFT : Nat := 0

/-- Modelled from the spec: direction Straight, see `NORTH`. -/
def STRAIGHT : Nat := 1

/-- Scenario B of the spec: North-Left and East-Straight arrive at time 0. -/
def scenarioB : List Arrival := [⟨NORTH, LEFT, 0⟩, ⟨EAST, STRAIGHT, 0⟩]

/-- A schedule of the threads for scenario B: the feed delivers both arrivals,
then each of the two controllers runs up to its `sleep(CROSS_TIME)`. -/
def scenarioBRun : List Thread :=
  pairRun (laneIdx NORTH LEFT) (laneIdx EAST STRAIGHT)

/-- The lanes of side `side` that are GREEN. -/
def greenOnSide (s : State) (side : Nat) : List Nat :=
  (List.range 16).filter (fun l => l / 4 = side ∧ isGreen s l)

/-- The lanes that are GREEN. -/
def greenLanes (s : State) : List Nat :=
  (List.range 16).filter (fun l => isGreen s l)

/-- The GREEN and RED prints of lane `l`, in order. -/
def lights (l : Nat) (tr : List Event) : List LaneAct :=
  (laneTrace l tr).filter (fun a => a = LaneAct.green ∨ a = LaneAct.red)

/-- The light sequence GREEN, RED repeated `k` times. -/
def altern : Nat → List LaneAct
  | 0 => []
  | k + 1 => altern k ++ [LaneAct.green, LaneAct.red]

/-- Controller `l` is blocked in `pthread_mutex_lock` on a mutex owned by `h`. -/
def waitsFor (s : State) (l h : Nat) : Prop :=
  l < 16 ∧ s.pc l = Pc.lock ∧ s.mutexes (l / 4) = some h

instance (s : State) (l h : Nat) : Decidable (waitsFor s l h) := by
  unfold waitsFor; infer_instance

/-- Flat index of the semaphore `supply_arrivals` posts for arrival `a`; the
controller started with this number as `lane_id` waits on the same semaphore. -/
def laneOf (a : Arrival) : Nat := laneIdx a.side a.direction

/-- The entries of the schedule whose semaphore is number `l`. -/
def arrivalsFor (l : Nat) (input : List Arrival) : List Arrival :=
  input.filter (fun a => laneOf a = l)

/-- How many arrivals the feed has stored for the lane with semaphore `l`. -/
def stored (l : Nat) (s : State) : Nat :=
  (storeIdx s.trace).countP (fun w => laneIdx w.1 w.2.1 = l)

/-- Semaphore invariant: completed waits plus the value equal the posts. -/
def SemInv (s : State) : Prop :=
  ∀ l, calls l LaneAct.wait s + s.semaphores l = posts l s

/-- Progress invariant of the feed: it has posted once for each of the first
`i` entries, and has stored one arrival more than it has posted exactly while
it is between the store and the post of entry `i`. -/
def FeedInv (input : List Arrival) (s : State) : Prop :=
  s.i ≤ input.length ∧
  (s.fpc = FeedPc.ret → s.i = input.length) ∧
  (∀ l, posts l s = (arrivalsFor l (input.take s.i)).length) ∧
  (∀ l, stored l s = posts l s
    + (if s.fpc = FeedPc.post ∧ (input[s.i]?).map laneOf = some l then 1 else 0))

/-- The counter `num_curr_arrivals` of the feed agrees with the stores it made. -/
def NumInv (s : State) : Prop :=
  ∀ l, s.num_curr_arrivals l = stored l s

/-- The accounting the semaphore of lane `l` is meant to keep, in a state of
the program: no access has been out of bounds, the completed waits plus the
value of the semaphore equal the posts, the feed has posted once per stored
arrival (one post outstanding at most), and the lane has not started more
crossings than arrivals were stored. -/
def Accounted (s : State) (l : Nat) : Prop :=
  s.ub = false ∧
  calls l LaneAct.wait s + s.semaphores l = posts l s ∧
  posts l s ≤ s.num_curr_arrivals l ∧
  s.num_curr_arrivals l ≤ posts l s + 1 ∧
  calls l LaneAct.green s ≤ s.num_curr_arrivals l

/-- The feed on its own for 62 statements: twenty full iterations, then the
sleep and the store of the 21st entry. -/
def overflowRun : List Thread := List.replicate 62 Thread.feed

/-- The schedule with a single arrival, for lane 0, at time 0. -/
def oneArrival : List Arrival := [⟨0, 0, 0⟩]

/-- The feed delivers the arrival of `oneArrival` and returns, then the
controller of lane 0 runs one full iteration. -/
def oneArrivalRun : List Thread :=
  List.replicate 4 Thread.feed ++ List.replicate 6 (Thread.light 0)

/-- The feed delivers the three arrivals of `sameLane 0 0 3` and returns
before the controller of lane 0 runs; then that controller runs 18 statements,
three full iterations. -/
def burstRun : List Thread :=
  List.replicate 10 Thread.feed ++ List.replicate 18 (Thread.light 0)

/-! ## Theorems -/

/-! ### The feed on its own -/

theorem delay_exact (a t : Int) (h0 : 0 ≤ t) (h1 : t ≤ a) (h2 : a < 2 ^ 31) :
    delay a t = a - t ∧ toUnsigned (delay a t) = (a - t).toNat := by
  have e : delay a t = a - t := by
    unfold delay wrapInt
    omega
  refine ⟨e, ?_⟩
  rw [e]; unfold toUnsigned
  congr 1
  omega

theorem sleepArgs_append (x y : List Event) :
    sleepArgs (x ++ y) = sleepArgs x ++ sleepArgs y := by
  simp [sleepArgs, List.filterMap_append]

theorem feedIter_t (s : State) (a : Arrival) : (feedIter s a).t = a.time := rfl

theorem feedIter_sleepArgs (s : State) (a : Arrival) :
    sleepArgs (feedIter s a).trace
      = sleepArgs s.trace ++ [toUnsigned (delay a.time s.t)] := by
  simp [feedIter, feedPost, feedStore, feedSleep, sleepArgs]

theorem foldl_sleepArgs (input : List Arrival) :
    ∀ (s : State), 0 ≤ s.t → (∀ a ∈ input, a.time < 2 ^ 31) →
      (s.t :: input.map Arrival.time).Pairwise (· ≤ ·) →
      sleepArgs (input.foldl feedIter s).trace = sleepArgs s.trace ++ gaps s.t input := by
  induction input with
  | nil => intro s _ _ _; simp [gaps]
  | cons a rest ih =>
    intro s h0 hr hp
    have hta : s.t ≤ a.time := List.rel_of_pairwise_cons hp (by simp)
    have ha : a.time < 2 ^ 31 := hr a (by simp)
    rw [List.foldl_cons, ih (feedIter s a) (by rw [feedIter_t]; omega)
      (fun b hb => hr b (by simp [hb]))
      (by rw [feedIter_t]; simpa using (List.pairwise_cons.mp hp).2)]
    rw [feedIter_sleepArgs, feedIter_t, (delay_exact a.time s.t h0 hta ha).2]
    simp [gaps]

theorem timeAt_zero (a : Arrival) (rest : List Arrival) : timeAt (a :: rest) 0 = a.time := by
  simp [timeAt]

theorem timeAt_succ (a : Arrival) (rest : List Arrival) (i : Nat) :
    timeAt (a :: rest) (i + 1) = timeAt rest i := by
  simp [timeAt]

theorem gaps_length (l : List Arrival) : ∀ t, (gaps t l).length = l.length := by
  induction l with
  | nil => intro t; rfl
  | cons a rest ih => intro t; simp [gaps, ih]

theorem gaps_getD (l : List Arrival) :
    ∀ (t : Int), (t :: l.map Arrival.time).Pairwise (· ≤ ·) → ∀ i, i < l.length →
      (((gaps t l).getD i 0 : Nat) : Int)
        = timeAt l i - (if i = 0 then t else timeAt l (i - 1)) := by
  induction l with
  | nil => intro t _ i hi; simp at hi
  | cons a rest ih =>
    intro t hp i hi
    have hta : t ≤ a.time := List.rel_of_pairwise_cons hp (by simp)
    have hp2 : (a.time :: rest.map Arrival.time).Pairwise (· ≤ ·) := by
      simpa using (List.pairwise_cons.mp hp).2
    cases i with
    | zero =>
      simp only [gaps, List.getD_cons_zero, timeAt_zero, if_true]
      omega
    | succ j =>
      have hj : j < rest.length := by simpa using hi
      simp only [gaps, List.getD_cons_succ, timeAt_succ]
      rw [ih a.time hp2 j hj]
      cases j with
      | zero => simp [timeAt_zero]
      | succ k => simp [timeAt_succ]

theorem gaps_sum (l : List Arrival) :
    ∀ (t : Int), (t :: l.map Arrival.time).Pairwise (· ≤ ·) → ∀ i, i < l.length →
      ((((gaps t l).take (i + 1)).sum : Nat) : Int) = timeAt l i - t := by
  induction l with
  | nil => intro t _ i hi; simp at hi
  | cons a rest ih =>
    intro t hp i hi
    have hta : t ≤ a.time := List.rel_of_pairwise_cons hp (by simp)
    have hp2 : (a.time :: rest.map Arrival.time).Pairwise (· ≤ ·) := by
      simpa using (List.pairwise_cons.mp hp).2
    cases i with
    | zero =>
      simp only [gaps, List.take_succ_cons, List.take_zero, List.sum_cons, List.sum_nil,
        timeAt_zero]
      omega
    | succ j =>
      have hj : j < rest.length := by simpa using hi
      simp only [gaps, List.take_succ_cons, List.sum_cons, timeAt_succ]
      have := ih a.time hp2 j hj
      rw [Nat.cast_add]
      omega

theorem foldl_snoc (l : List Arrival) (a : Arrival) (s : State) :
    (l ++ [a]).foldl feedIter s = feedIter (l.foldl feedIter s) a := by
  simp [List.foldl_append]

theorem feedIter_trace (s : State) (a : Arrival) :
    (feedIter s a).trace
      = s.trace ++ [Event.sleep (toUnsigned (delay a.time s.t)),
          Event.store a.side a.direction
            (s.num_curr_arrivals (laneIdx a.side a.direction)) a,
          Event.post (laneIdx a.side a.direction)] := by
  simp [feedIter, feedPost, feedStore, feedSleep]

theorem sleepArgs_cons (e : Event) (x : List Event) :
    (sleepArgs (e :: x)).sum
      = (match e with
          | Event.sleep n => n
          | _ => 0) + (sleepArgs x).sum := by
  cases e <;> simp [sleepArgs]

theorem deliveries_append (x y : List Event) :
    ∀ c, deliveries c (x ++ y)
      = deliveries c x ++ deliveries (c + (sleepArgs x).sum) y := by
  induction x with
  | nil => intro c; simp [deliveries, sleepArgs]
  | cons e x ih =>
    intro c
    rw [sleepArgs_cons]
    cases e with
    | sleep n =>
      show deliveries (c + n) (x ++ y) = _
      rw [ih (c + n)]
      simp [deliveries, Nat.add_assoc]
    | store sd d k a =>
      show (c, a) :: deliveries c (x ++ y) = _
      rw [ih c]
      simp [deliveries]
    | post m =>
      show deliveries c (x ++ y) = _
      rw [ih c]
      simp [deliveries]
    | ctrl l a =>
      show deliveries c (x ++ y) = _
      rw [ih c]
      simp [deliveries]

theorem signals_append (x y : List Event) :
    ∀ c, signals c (x ++ y)
      = signals c x ++ signals (c + (sleepArgs x).sum) y := by
  induction x with
  | nil => intro c; simp [signals, sleepArgs]
  | cons e x ih =>
    intro c
    rw [sleepArgs_cons]
    cases e with
    | sleep n =>
      show signals (c + n) (x ++ y) = _
      rw [ih (c + n)]
      simp [signals, Nat.add_assoc]
    | store sd d k a =>
      show signals c (x ++ y) = _
      rw [ih c]
      simp [signals]
    | post m =>
      show (c, m) :: signals c (x ++ y) = _
      rw [ih c]
      simp [signals]
    | ctrl l a =>
      show signals c (x ++ y) = _
      rw [ih c]
      simp [signals]

/-- The simulated clock of the feed: after the feed has processed `l`, the
sleeps add up to its local `t`, and every arrival was stored and signalled
when the clock showed its scheduled time. -/
theorem feed_clock (l : List Arrival)
    (hrange : ∀ a ∈ l, a.time < 2 ^ 31)
    (hnonneg : ∀ a ∈ l, 0 ≤ a.time)
    (hmono : (l.map Arrival.time).Pairwise (· ≤ ·)) :
    0 ≤ (l.foldl feedIter State.start).t ∧
    ((l.foldl feedIter State.start).t = 0 ∨
      ∃ b ∈ l, b.time = (l.foldl feedIter State.start).t) ∧
    (((sleepArgs (l.foldl feedIter State.start).trace).sum : Nat) : Int)
      = (l.foldl feedIter State.start).t ∧
    deliveries 0 (l.foldl feedIter State.start).trace
      = l.map (fun a => (a.time.toNat, a)) ∧
    signals 0 (l.foldl feedIter State.start).trace
      = l.map (fun a => (a.time.toNat, laneOf a)) := by
  induction l using List.reverseRecOn with
  | nil => simp [State.start, sleepArgs, deliveries, signals]
  | append_singleton l a ih =>
    have hm := List.pairwise_append.mp (by simpa using hmono)
    obtain ⟨h0, hin, hsum, hdel, hsig⟩ := ih (fun b hb => hrange b (by simp [hb]))
      (fun b hb => hnonneg b (by simp [hb])) hm.1
    have ha0 : 0 ≤ a.time := hnonneg a (by simp)
    have hta : (l.foldl feedIter State.start).t ≤ a.time := by
      rcases hin with e | ⟨b, hb, e⟩
      · rw [e]; exact ha0
      · rw [← e]
        exact hm.2.2 b.time (List.mem_map.mpr ⟨b, hb, rfl⟩) a.time (by simp)
    have hu := (delay_exact a.time _ h0 hta (hrange a (by simp))).2
    have hs3 : ∀ (u sd d k m : Nat) (x : Arrival),
        sleepArgs [Event.sleep u, Event.store sd d k x, Event.post m] = [u] := by
      intros; rfl
    have hclock : (sleepArgs (l.foldl feedIter State.start).trace).sum
        + (a.time - (l.foldl feedIter State.start).t).toNat = a.time.toNat := by
      omega
    rw [foldl_snoc, feedIter_trace, feedIter_t, hu]
    refine ⟨ha0, Or.inr ⟨a, by simp, rfl⟩, ?_, ?_, ?_⟩
    · rw [sleepArgs_append, hs3, List.sum_append, List.sum_singleton, hclock]
      omega
    · rw [deliveries_append, hdel, Nat.zero_add]
      simp only [deliveries, hclock, List.map_append, List.map_cons, List.map_nil]
    · rw [signals_append, hsig, Nat.zero_add]
      simp only [signals, hclock, List.map_append, List.map_cons, List.map_nil, laneOf]

/-- C6: for a schedule of `int` timestamps that are non-negative and
non-decreasing, `supply_arrivals` calls `sleep` once per entry; the argument of
the call for entry `i` is `time(i) - time(i-1)` (with `time(-1) = 0`), which is
not negative; the arguments up to and including entry `i` add up to `time(i)`;
and every arrival is stored and its semaphore posted, in schedule order, after
the sleeps made so far have added up to exactly its scheduled time. -/
theorem feed_timing (input : List Arrival)
    (hrange : ∀ a ∈ input, a.time < 2 ^ 31)
    (hnonneg : ∀ a ∈ input, 0 ≤ a.time)
    (hmono : (input.map Arrival.time).Pairwise (· ≤ ·)) :
    (sleepArgs (supply_arrivals input State.start).trace).length = input.length ∧
    (∀ i, i < input.length →
      0 ≤ timeAt input i - prevTime input i ∧
      (((sleepArgs (supply_arrivals input State.start).trace).getD i 0 : Nat) : Int)
        = timeAt input i - prevTime input i ∧
      ((((sleepArgs (supply_arrivals input State.start).trace).take (i + 1)).sum : Nat) : Int)
        = timeAt input i) ∧
    deliveries 0 (supply_arrivals input State.start).trace
      = input.map (fun a => (a.time.toNat, a)) ∧
    signals 0 (supply_arrivals input State.start).trace
      = input.map (fun a => (a.time.toNat, laneOf a)) := by
  have hp : ((0 : Int) :: input.map Arrival.time).Pairwise (· ≤ ·) := by
    refine List.pairwise_cons.mpr ⟨?_, hmono⟩
    intro x hx
    obtain ⟨a, ha, rfl⟩ := List.mem_map.mp hx
    exact hnonneg a ha
  have key : sleepArgs (supply_arrivals input State.start).trace = gaps 0 input := by
    have := foldl_sleepArgs input State.start (le_refl _) hrange hp
    simpa [supply_arrivals, State.start, sleepArgs] using this
  obtain ⟨_, _, _, hdel, hsig⟩ := feed_clock input hrange hnonneg hmono
  rw [key]
  refine ⟨gaps_length input 0, fun i hi => ?_, hdel, hsig⟩
  have h1 := gaps_getD input 0 hp i hi
  have h2 := gaps_sum input 0 hp i hi
  refine ⟨?_, ?_, ?_⟩
  · unfold prevTime; rw [← h1]; exact Int.natCast_nonneg _
  · unfold prevTime; exact h1
  · simpa using h2

/-- C6 at the schedule with times 0, 2, 2, 7: the delays are 0, 2, 0, 5 and
the four arrivals are delivered at clock 0, 2, 2, 7. -/
theorem feed_timing_witness :
    (sleepArgs (supply_arrivals timedSchedule State.start).trace).length
      = timedSchedule.length ∧
    (∀ i, i < timedSchedule.length →
      0 ≤ timeAt timedSchedule i - prevTime timedSchedule i ∧
      (((sleepArgs (supply_arrivals timedSchedule State.start).trace).getD i 0 : Nat) : Int)
        = timeAt timedSchedule i - prevTime timedSchedule i ∧
      ((((sleepArgs (supply_arrivals timedSchedule State.start).trace).take (i + 1)).sum
          : Nat) : Int)
        = timeAt timedSchedule i) ∧
    deliveries 0 (supply_arrivals timedSchedule State.start).trace
      = timedSchedule.map (fun a => (a.time.toNat, a)) ∧
    signals 0 (supply_arrivals timedSchedule State.start).trace
      = timedSchedule.map (fun a => (a.time.toNat, laneOf a)) :=
  feed_timing timedSchedule (by decide) (by decide) (by decide)

theorem feedIter_num (s : State) (a : Arrival) :
    (feedIter s a).num_curr_arrivals
      = upd s.num_curr_arrivals (laneIdx a.side a.direction)
          (s.num_curr_arrivals (laneIdx a.side a.direction) + 1) := rfl

theorem feedIter_mem (s : State) (a : Arrival) :
    (feedIter s a).curr_arrivals
      = upd s.curr_arrivals
          (slotIdx a.side a.direction (s.num_curr_arrivals (laneIdx a.side a.direction))) a := rfl

theorem feedIter_storeIdx (s : State) (a : Arrival) :
    storeIdx (feedIter s a).trace
      = storeIdx s.trace
          ++ [(a.side, a.direction, s.num_curr_arrivals (laneIdx a.side a.direction))] := by
  simp [feedIter, feedPost, feedStore, feedSleep, storeIdx]

theorem laneArrivals_snoc (s d : Nat) (l : List Arrival) (a : Arrival) :
    laneArrivals s d (l ++ [a])
      = laneArrivals s d l ++ (if a.side = s ∧ a.direction = d then [a] else []) := by
  unfold laneArrivals
  rw [List.filter_append]
  congr 1
  by_cases h : a.side = s ∧ a.direction = d
  · simp [onLane, h]
  · simp only [h, if_false]
    simp only [List.filter_cons, List.filter_nil, onLane]
    have : (decide (a.side = s) && decide (a.direction = d)) = false := by
      simpa using h
    simp [this]

theorem laneIdx_inj (s d s' d' : Nat) (hd : d < 4) (hd' : d' < 4) :
    laneIdx s d = laneIdx s' d' ↔ s = s' ∧ d = d' := by
  unfold laneIdx; omega

theorem slotIdx_inj (s d k s' d' k' : Nat) (hd : d < 4) (hd' : d' < 4)
    (hk : k < 20) (hk' : k' < 20) :
    slotIdx s d k = slotIdx s' d' k' ↔ s = s' ∧ d = d' ∧ k = k' := by
  unfold slotIdx; omega

/-- After the feed has processed `l`, the counter of a lane is the number of
entries of `l` for that lane. -/
theorem num_eq (l : List Arrival) (hwf : ∀ a ∈ l, a.side < 4 ∧ a.direction < 4)
    (s d : Nat) (hd : d < 4) :
    (l.foldl feedIter State.start).num_curr_arrivals (laneIdx s d)
      = (laneArrivals s d l).length := by
  induction l using List.reverseRecOn with
  | nil => rfl
  | append_singleton l a ih =>
    have ih2 := ih (fun b hb => hwf b (by simp [hb]))
    have ha := hwf a (by simp)
    rw [foldl_snoc, feedIter_num, laneArrivals_snoc]
    unfold upd
    by_cases h : a.side = s ∧ a.direction = d
    · obtain ⟨rfl, rfl⟩ := h
      simp [ih2]
    · have hne : ¬ laneIdx s d = laneIdx a.side a.direction := by
        rw [laneIdx_inj s d _ _ hd ha.2]
        intro hh; exact h ⟨hh.1.symm, hh.2.symm⟩
      simp [hne, h, ih2]


theorem laneArrivals_length_mono (s d : Nat) (l : List Arrival) (a : Arrival) :
    (laneArrivals s d l).length ≤ (laneArrivals s d (l ++ [a])).length := by
  rw [laneArrivals_snoc]; simp

/-- Content of the storage after the feed has processed `l`, when no lane got
more than 20 entries: cell `k` of lane `(s, d)` holds the `k`-th entry of `l`
for that lane, and is still zero when there is no such entry. -/
theorem mem_eq (l : List Arrival) (hwf : ∀ a ∈ l, a.side < 4 ∧ a.direction < 4)
    (hcap : ∀ s d, (laneArrivals s d l).length ≤ 20)
    (s d k : Nat) (hd : d < 4) (hk : k < 20) :
    (l.foldl feedIter State.start).curr_arrivals (slotIdx s d k)
      = ((laneArrivals s d l)[k]?).getD Arrival.zero := by
  induction l using List.reverseRecOn with
  | nil => simp [laneArrivals, State.start]
  | append_singleton l a ih =>
    have hwf2 : ∀ b ∈ l, b.side < 4 ∧ b.direction < 4 := fun b hb => hwf b (by simp [hb])
    have hcap2 : ∀ s d, (laneArrivals s d l).length ≤ 20 :=
      fun s d => le_trans (laneArrivals_length_mono s d l a) (hcap s d)
    have ih2 := ih hwf2 hcap2
    have ha := hwf a (by simp)
    have hn := num_eq l hwf2 a.side a.direction ha.2
    have hlt : (laneArrivals a.side a.direction l).length < 20 := by
      have := hcap a.side a.direction
      rw [laneArrivals_snoc] at this
      simp at this
      omega
    rw [foldl_snoc, feedIter_mem, laneArrivals_snoc, hn]
    unfold upd
    have hiff := slotIdx_inj s d k a.side a.direction
      (laneArrivals a.side a.direction l).length hd ha.2 hk hlt
    by_cases h : a.side = s ∧ a.direction = d
    · obtain ⟨rfl, rfl⟩ := h
      simp only [and_self, if_true]
      by_cases hkl : k = (laneArrivals a.side a.direction l).length
      · rw [if_pos (hiff.mpr ⟨rfl, rfl, hkl⟩)]
        simp [hkl]
      · rw [if_neg (fun e => hkl (hiff.mp e).2.2), ih2]
        rcases Nat.lt_or_gt_of_ne hkl with h1 | h1
        · rw [List.getElem?_append_left h1]
        · have e1 : (laneArrivals a.side a.direction l ++ [a])[k]? = none :=
            List.getElem?_eq_none (by
              rw [List.length_append, List.length_singleton]; omega)
          have e2 : (laneArrivals a.side a.direction l)[k]? = none :=
            List.getElem?_eq_none (by omega)
          rw [e1, e2]
    · rw [if_neg (fun e => h ⟨(hiff.mp e).1.symm, (hiff.mp e).2.1.symm⟩), ih2]
      simp [h]

theorem laneWrites_eq (l : List Arrival) (hwf : ∀ a ∈ l, a.side < 4 ∧ a.direction < 4)
    (s d : Nat) (hd : d < 4) :
    laneWrites s d (l.foldl feedIter State.start).trace
      = List.range (laneArrivals s d l).length := by
  induction l using List.reverseRecOn with
  | nil => simp [laneWrites, storeIdx, laneArrivals, State.start]
  | append_singleton l a ih =>
    have hwf2 : ∀ b ∈ l, b.side < 4 ∧ b.direction < 4 := fun b hb => hwf b (by simp [hb])
    have ih2 := ih hwf2
    have ha := hwf a (by simp)
    have hn := num_eq l hwf2 a.side a.direction ha.2
    unfold laneWrites at ih2 ⊢
    rw [foldl_snoc, feedIter_storeIdx, laneArrivals_snoc, hn, List.filter_append,
      List.map_append, ih2]
    by_cases h : a.side = s ∧ a.direction = d
    · obtain ⟨rfl, rfl⟩ := h
      simp [List.range_succ]
    · have : (decide (a.side = s) && decide (a.direction = d)) = false := by
        simpa using h
      simp [h, List.filter_cons, this]

theorem storeIdx_lanes (l : List Arrival) :
    (storeIdx (l.foldl feedIter State.start).trace).map (fun w => (w.1, w.2.1))
      = l.map (fun a => (a.side, a.direction)) := by
  induction l using List.reverseRecOn with
  | nil => simp [storeIdx, State.start]
  | append_singleton l a ih =>
    rw [foldl_snoc, feedIter_storeIdx, List.map_append, ih]
    simp

theorem supply_trace (input : List Arrival) (s : State) :
    (supply_arrivals input s).trace = (input.foldl feedIter s).trace := rfl

theorem supply_mem (input : List Arrival) (s : State) :
    (supply_arrivals input s).curr_arrivals = (input.foldl feedIter s).curr_arrivals := rfl


theorem laneArrivals_eq_nil (l : List Arrival) (hwf : ∀ a ∈ l, a.side < 4 ∧ a.direction < 4)
    (s d : Nat) (h : ¬ (s < 4 ∧ d < 4)) : laneArrivals s d l = [] := by
  unfold laneArrivals
  rw [List.filter_eq_nil_iff]
  intro a ha
  have := hwf a ha
  simp only [onLane, Bool.and_eq_true, decide_eq_true_eq, not_and]
  intro h1 h2
  exact h ⟨h1 ▸ this.1, h2 ▸ this.2⟩

/-- C3: for a schedule whose sides and directions are in 0..3 and that has at
most 20 arrivals per lane, after `supply_arrivals` has processed it the first
`n` cells of `curr_arrivals[s][d]` (`n` the number of entries for that lane)
are the entries for lane `(s, d)` in schedule order, and the other cells of the
lane still hold their initial zero. -/
theorem feed_preserves_lane_order (input : List Arrival)
    (hwf : ∀ a ∈ input, a.side < 4 ∧ a.direction < 4)
    (hcap : ∀ s < 4, ∀ d < 4, (laneArrivals s d input).length ≤ 20) :
    ∀ s < 4, ∀ d < 4,
      (List.range (laneArrivals s d input).length).map
          (fun k => (supply_arrivals input State.start).curr_arrivals (slotIdx s d k))
        = laneArrivals s d input ∧
      ∀ k, (laneArrivals s d input).length ≤ k → k < 20 →
        (supply_arrivals input State.start).curr_arrivals (slotIdx s d k) = Arrival.zero := by
  have hcap2 : ∀ s d, (laneArrivals s d input).length ≤ 20 := by
    intro s d
    by_cases h : s < 4 ∧ d < 4
    · exact hcap s h.1 d h.2
    · rw [laneArrivals_eq_nil input hwf s d h]; simp
  intro s _ d hd
  constructor
  · apply List.ext_getElem
    · simp
    · intro k h1 h2
      have hk : k < 20 := lt_of_lt_of_le h2 (hcap2 s d)
      simp only [List.getElem_map, List.getElem_range]
      rw [supply_mem, mem_eq input hwf hcap2 s d k hd hk, List.getElem?_eq_getElem h2]
      rfl
  · intro k hk1 hk2
    rw [supply_mem, mem_eq input hwf hcap2 s d k hd hk2, List.getElem?_eq_none hk1]
    rfl

/-- C3 on `burstSchedule`, lane (0, 1): its three arrivals are stored in order. -/
theorem feed_preserves_lane_order_witness :
    (List.range (laneArrivals 0 1 burstSchedule).length).map
        (fun k => (supply_arrivals burstSchedule State.start).curr_arrivals (slotIdx 0 1 k))
      = laneArrivals 0 1 burstSchedule ∧
    ∀ k, (laneArrivals 0 1 burstSchedule).length ≤ k → k < 20 →
      (supply_arrivals burstSchedule State.start).curr_arrivals (slotIdx 0 1 k)
        = Arrival.zero :=
  feed_preserves_lane_order burstSchedule (by decide) (by decide) 0 (by decide) 1 (by decide)

theorem feedIter_ub (s : State) (a : Arrival) :
    (feedIter s a).ub
      = (s.ub || !inBounds a.side a.direction
            (s.num_curr_arrivals (laneIdx a.side a.direction))
          || !(decide (a.side < 4) && decide (a.direction < 4))) := rfl

theorem supply_ub (input : List Arrival) (s : State) :
    (supply_arrivals input s).ub = (input.foldl feedIter s).ub := rfl

/-- The states `supply_arrivals` goes through: the state after the first `p`
entries is the state the rest of the schedule is processed from. -/
theorem foldl_take_drop (input : List Arrival) (p : Nat) (s : State) :
    input.foldl feedIter s
      = (input.drop p).foldl feedIter ((input.take p).foldl feedIter s) := by
  rw [← List.foldl_append, List.take_append_drop]

theorem take_succ_snoc (input : List Arrival) (p : Nat) (a : Arrival)
    (h : input[p]? = some a) : input.take (p + 1) = input.take p ++ [a] := by
  rw [List.take_succ, h]; rfl

/-- No access of the feed is out of bounds exactly when no lane has more than
20 entries. -/
theorem ub_iff (l : List Arrival) (hwf : ∀ a ∈ l, a.side < 4 ∧ a.direction < 4) :
    (l.foldl feedIter State.start).ub = false
      ↔ ∀ s < 4, ∀ d < 4, (laneArrivals s d l).length ≤ 20 := by
  induction l using List.reverseRecOn with
  | nil => simp [State.start, laneArrivals]
  | append_singleton l a ih =>
    have hwf2 : ∀ b ∈ l, b.side < 4 ∧ b.direction < 4 := fun b hb => hwf b (by simp [hb])
    have ih2 := ih hwf2
    have ha := hwf a (by simp)
    have hn := num_eq l hwf2 a.side a.direction ha.2
    rw [foldl_snoc, feedIter_ub, hn]
    simp only [inBounds, ha.1, ha.2, decide_True, Bool.true_and, Bool.and_self, Bool.not_true,
      Bool.or_false, Bool.or_eq_false_iff, Bool.not_eq_false', decide_eq_true_eq, ih2]
    constructor
    · rintro ⟨h1, h2⟩ s hs d hd
      rw [laneArrivals_snoc]
      by_cases e : a.side = s ∧ a.direction = d
      · obtain ⟨rfl, rfl⟩ := e
        simp; omega
      · simpa [e] using h1 s hs d hd
    · intro h
      refine ⟨fun s hs d hd => le_trans (laneArrivals_length_mono s d l a) (h s hs d hd), ?_⟩
      have := h a.side ha.1 a.direction ha.2
      rw [laneArrivals_snoc] at this
      simp at this
      omega

/-- C10: for a schedule whose sides and directions are in 0..3: all accesses of
`supply_arrivals` are within `curr_arrivals[4][4][20]`, and all writes to
`curr_arrivals[side][direction][k]` have `k < 20`, exactly when no lane has
more than 20 arrivals; the writes for one lane use the indices 0, 1, 2, ... in
order, and right after entry `p` is processed the cell with index `j` of its
lane holds that entry, `j` being the number of earlier entries for the lane;
in particular the 21st arrival of a lane is stored in cell 20 of the lane,
which is not within the lane's array: the write is out of bounds. -/
theorem storage_bounds (input : List Arrival)
    (hwf : ∀ a ∈ input, a.side < 4 ∧ a.direction < 4) :
    ((supply_arrivals input State.start).ub = false
      ↔ ∀ s < 4, ∀ d < 4, (laneArrivals s d input).length ≤ 20) ∧
    ((∀ w ∈ storeIdx (supply_arrivals input State.start).trace, w.2.2 < 20)
      ↔ ∀ s < 4, ∀ d < 4, (laneArrivals s d input).length ≤ 20) ∧
    (∀ s < 4, ∀ d < 4,
      laneWrites s d (supply_arrivals input State.start).trace
        = List.range (laneArrivals s d input).length) ∧
    (∀ p a, input[p]? = some a →
      (supply_arrivals (input.take (p + 1)) State.start).curr_arrivals
          (slotIdx a.side a.direction
            (laneArrivals a.side a.direction (input.take p)).length) = a ∧
      ((supply_arrivals (input.take (p + 1)) State.start).ub = false
        → (laneArrivals a.side a.direction (input.take p)).length < 20)) ∧
    (∀ p a, input[p]? = some a →
      (laneArrivals a.side a.direction (input.take p)).length = 20 →
      (supply_arrivals (input.take (p + 1)) State.start).curr_arrivals
          (slotIdx a.side a.direction 20) = a ∧
      inBounds a.side a.direction 20 = false ∧
      (supply_arrivals (input.take (p + 1)) State.start).ub = true ∧
      (supply_arrivals input State.start).ub = true) := by
  have hW : ∀ s d, d < 4 → ∀ k,
      (s, d, k) ∈ storeIdx (supply_arrivals input State.start).trace
        ↔ k < (laneArrivals s d input).length := by
    intro s d hd k
    rw [← List.mem_range, ← laneWrites_eq input hwf s d hd, supply_trace]
    unfold laneWrites
    simp only [List.mem_map, List.mem_filter, Bool.and_eq_true, decide_eq_true_eq]
    constructor
    · intro h; exact ⟨(s, d, k), ⟨h, rfl, rfl⟩, rfl⟩
    · rintro ⟨⟨s', d', k'⟩, ⟨h, h1, h2⟩, h3⟩
      simp only at h1 h2 h3
      subst h1 h2 h3
      exact h
  have hL : ∀ w ∈ storeIdx (supply_arrivals input State.start).trace, w.2.1 < 4 := by
    intro w hw
    have h1 : (w.1, w.2.1) ∈ (storeIdx (supply_arrivals input State.start).trace).map
        (fun w => (w.1, w.2.1)) := List.mem_map.mpr ⟨w, hw, rfl⟩
    rw [supply_trace, storeIdx_lanes] at h1
    obtain ⟨a, ha, e⟩ := List.mem_map.mp h1
    have := hwf a ha
    simp only [Prod.mk.injEq] at e
    omega
  have hcell : ∀ p a, input[p]? = some a →
      (supply_arrivals (input.take (p + 1)) State.start).curr_arrivals
          (slotIdx a.side a.direction
            (laneArrivals a.side a.direction (input.take p)).length) = a ∧
      (supply_arrivals (input.take (p + 1)) State.start).ub
        = ((supply_arrivals (input.take p) State.start).ub
            || !inBounds a.side a.direction
                (laneArrivals a.side a.direction (input.take p)).length) := by
    intro p a hpa
    have ha := hwf a (List.getElem?_mem hpa)
    have hwf2 : ∀ b ∈ input.take p, b.side < 4 ∧ b.direction < 4 :=
      fun b hb => hwf b (List.mem_of_mem_take hb)
    have hn := num_eq (input.take p) hwf2 a.side a.direction ha.2
    rw [supply_mem, supply_ub, supply_ub, take_succ_snoc input p a hpa, foldl_snoc,
      feedIter_mem, feedIter_ub, hn]
    refine ⟨by simp [upd], ?_⟩
    simp [ha.1, ha.2]
  refine ⟨?_, ⟨?_, ?_⟩, ?_, ?_, ?_⟩
  · rw [supply_ub]; exact ub_iff input hwf
  · intro h s _ d hd
    by_contra hc
    have := h (s, d, 20) ((hW s d hd 20).mpr (by omega))
    simp at this
  · intro h w hw
    obtain ⟨s, d, k⟩ := w
    have hd : d < 4 := hL _ hw
    have hk := (hW s d hd k).mp hw
    by_cases hs : s < 4
    · exact lt_of_lt_of_le hk (h s hs d hd)
    · rw [laneArrivals_eq_nil input hwf s d (fun hh => hs hh.1)] at hk
      simp at hk
  · intro s _ d hd
    rw [supply_trace]
    exact laneWrites_eq input hwf s d hd
  · intro p a hpa
    obtain ⟨h1, h2⟩ := hcell p a hpa
    refine ⟨h1, fun hub => ?_⟩
    rw [h2] at hub
    simp only [Bool.or_eq_false_iff, Bool.not_eq_false', inBounds, Bool.and_eq_true,
      decide_eq_true_eq] at hub
    exact hub.2.2
  · intro p a hpa h20
    obtain ⟨h1, h2⟩ := hcell p a hpa
    rw [h20] at h1 h2
    have hnb : inBounds a.side a.direction 20 = false := by simp [inBounds]
    have hub : (supply_arrivals (input.take (p + 1)) State.start).ub = true := by
      rw [h2, hnb]; simp
    refine ⟨h1, hnb, hub, ?_⟩
    have ha := hwf a (List.getElem?_mem hpa)
    by_contra hc
    have hfalse : (supply_arrivals input State.start).ub = false := by simpa using hc
    rw [supply_ub, ub_iff input hwf] at hfalse
    have hle := hfalse a.side ha.1 a.direction ha.2
    have hsub : (laneArrivals a.side a.direction (input.take (p + 1))).length
        ≤ (laneArrivals a.side a.direction input).length :=
      ((List.take_sublist (p + 1) input).filter _).length_le
    rw [take_succ_snoc input p a hpa, laneArrivals_snoc] at hsub
    simp [h20] at hsub
    omega

/-- C10 on 21 arrivals for lane (1, 2): the last one is stored in cell 20 of
the lane, out of bounds. -/
theorem storage_bounds_witness :
    (supply_arrivals ((sameLane 1 2 21).take (20 + 1)) State.start).curr_arrivals
        (slotIdx 1 2 20) = ⟨1, 2, 0⟩ ∧
    inBounds 1 2 20 = false ∧
    (supply_arrivals ((sameLane 1 2 21).take (20 + 1)) State.start).ub = true ∧
    (supply_arrivals (sameLane 1 2 21) State.start).ub = true :=
  (storage_bounds (sameLane 1 2 21) (by decide)).2.2.2.2 20 ⟨1, 2, 0⟩
    (by decide) (by decide)

/-! ### The interleaving semantics -/

theorem laneIdx_div_mod (l : Nat) : laneIdx (l / 4) (l % 4) = l := by
  unfold laneIdx; omega

theorem exec_snoc (input : List Arrival) (sched : List Thread) (th : Thread) :
    exec input (sched ++ [th]) = next input (exec input sched) th := by
  simp [exec, List.foldl_append]

theorem exec_append (input : List Arrival) (sched more : List Thread) :
    exec input (sched ++ more) = more.foldl (next input) (exec input sched) := by
  simp [exec, List.foldl_append]

/-- The statements of `manage_light`, one disjunct per line of the loop body. -/
theorem stepCtrl_some (s s' : State) (l : Nat) (h : stepCtrl s l = some s') :
    l < 16 ∧
    ((s.pc l = Pc.semWait ∧ 0 < s.semaphores l ∧
        s' = { s with
          semaphores := upd s.semaphores l (s.semaphores l - 1)
          pc := upd s.pc l Pc.lock
          trace := s.trace ++ [Event.ctrl l LaneAct.wait] }) ∨
     (s.pc l = Pc.lock ∧ s.mutexes (l / 4) = none ∧
        s' = { s with
          mutexes := upd s.mutexes (l / 4) (some l)
          pc := upd s.pc l Pc.green
          trace := s.trace ++ [Event.ctrl l LaneAct.lock] }) ∨
     (s.pc l = Pc.green ∧
        s' = { s with
          pc := upd s.pc l Pc.cross
          trace := s.trace ++ [Event.ctrl l LaneAct.green] }) ∨
     (s.pc l = Pc.cross ∧ s' = { s with pc := upd s.pc l Pc.red }) ∨
     (s.pc l = Pc.red ∧
        s' = { s with
          pc := upd s.pc l Pc.unlock
          trace := s.trace ++ [Event.ctrl l LaneAct.red] }) ∨
     (s.pc l = Pc.unlock ∧
        s' = { s with
          mutexes := upd s.mutexes (l / 4) none
          pc := upd s.pc l Pc.semWait
          trace := s.trace ++ [Event.ctrl l LaneAct.unlock] })) := by
  unfold stepCtrl at h
  by_cases hl : l < 16
  · refine ⟨hl, ?_⟩
    simp only [hl, if_true, laneIdx_div_mod] at h
    cases hpc : s.pc l <;> simp only [hpc] at h
    · by_cases hs : 0 < s.semaphores l
      · simp only [hs, if_true, Option.some.injEq] at h
        exact Or.inl ⟨rfl, hs, h.symm⟩
      · simp [hs] at h
    · cases hm : s.mutexes (l / 4) with
      | none =>
        simp only [hm, Option.some.injEq] at h
        exact Or.inr (Or.inl ⟨rfl, rfl, h.symm⟩)
      | some o => simp [hm] at h
    · simp only [Option.some.injEq] at h
      exact Or.inr (Or.inr (Or.inl ⟨rfl, h.symm⟩))
    · simp only [Option.some.injEq] at h
      exact Or.inr (Or.inr (Or.inr (Or.inl ⟨rfl, h.symm⟩)))
    · simp only [Option.some.injEq] at h
      exact Or.inr (Or.inr (Or.inr (Or.inr (Or.inl ⟨rfl, h.symm⟩))))
    · simp only [Option.some.injEq] at h
      exact Or.inr (Or.inr (Or.inr (Or.inr (Or.inr ⟨rfl, h.symm⟩))))
    · simp at h
  · simp [hl] at h

/-- The statements of `supply_arrivals`. -/
theorem stepFeed_some (input : List Arrival) (s s' : State) (h : stepFeed input s = some s') :
    (s.fpc = FeedPc.loop ∧ ∃ a, input[s.i]? = some a ∧ s' = feedSleep a s) ∨
    (s.fpc = FeedPc.loop ∧ input[s.i]? = none ∧ s' = { s with fpc := FeedPc.ret }) ∨
    (s.fpc = FeedPc.store ∧ ∃ a, input[s.i]? = some a ∧ s' = feedStore a s) ∨
    (s.fpc = FeedPc.post ∧ ∃ a, input[s.i]? = some a ∧ s' = feedPost a s) := by
  unfold stepFeed at h
  cases hpc : s.fpc <;> simp only [hpc] at h
  · cases hi : input[s.i]? with
    | none =>
      simp only [hi, Option.some.injEq] at h
      exact Or.inr (Or.inl ⟨rfl, rfl, h.symm⟩)
    | some a =>
      simp only [hi, Option.some.injEq] at h
      exact Or.inl ⟨rfl, a, rfl, h.symm⟩
  · cases hi : input[s.i]? with
    | none => simp [hi] at h
    | some a =>
      simp only [hi, Option.map_some', Option.some.injEq] at h
      exact Or.inr (Or.inr (Or.inl ⟨rfl, a, rfl, h.symm⟩))
  · cases hi : input[s.i]? with
    | none => simp [hi] at h
    | some a =>
      simp only [hi, Option.map_some', Option.some.injEq] at h
      exact Or.inr (Or.inr (Or.inr ⟨rfl, a, rfl, h.symm⟩))
  · simp at h

/-- Induction over the reachable states: a property of the start state that
every statement of the feed and of the controllers preserves holds in every
reachable state. -/
theorem exec_induction (input : List Arrival) (P : State → Prop) (h0 : P State.start)
    (hfeed : ∀ s s', P s → stepFeed input s = some s' → P s')
    (hctrl : ∀ s l s', P s → stepCtrl s l = some s' → P s') :
    ∀ sched, P (exec input sched) := by
  intro sched
  induction sched using List.reverseRecOn with
  | nil => exact h0
  | append_singleton sched th ih =>
    rw [exec_snoc]
    unfold next
    cases hst : step input (exec input sched) th with
    | none => simpa using ih
    | some s' =>
      simp only [Option.getD_some]
      cases th with
      | feed => exact hfeed _ _ ih hst
      | light l => exact hctrl _ l _ ih hst


theorem stepFeed_frame (input : List Arrival) (s s' : State)
    (h : stepFeed input s = some s') :
    s'.mutexes = s.mutexes ∧ s'.pc = s.pc ∧
      ∀ l, laneTrace l s'.trace = laneTrace l s.trace := by
  rcases stepFeed_some input s s' h with ⟨_, a, _, rfl⟩ | ⟨_, _, rfl⟩ | ⟨_, a, _, rfl⟩ |
    ⟨_, a, _, rfl⟩ <;>
  simp [feedSleep, feedStore, feedPost, laneTrace, List.filterMap_append]

theorem ownerInv_exec (input : List Arrival) (sched : List Thread) :
    OwnerInv (exec input sched) := by
  apply exec_induction input OwnerInv
  · exact ⟨fun m l h => by simp [State.start] at h,
      fun l h => by simp [State.start, Pc.holding] at h⟩
  · intro s s' hs hst
    obtain ⟨hm, hp, _⟩ := stepFeed_frame input s s' hst
    unfold OwnerInv
    rw [hm, hp]
    exact hs
  · intro s l s' ⟨h1, h2⟩ hst
    obtain ⟨hl, hc⟩ := stepCtrl_some s s' l hst
    rcases hc with ⟨hpc, _, rfl⟩ | ⟨hpc, hmx, rfl⟩ | ⟨hpc, rfl⟩ | ⟨hpc, rfl⟩ | ⟨hpc, rfl⟩ |
      ⟨hpc, rfl⟩
    · -- sem_wait
      constructor
      · intro m l' hm
        obtain ⟨a, b, c⟩ := h1 m l' hm
        have hne : l' ≠ l := by rintro rfl; simp [hpc, Pc.holding] at c
        exact ⟨a, b, by simpa [upd, hne] using c⟩
      · intro l' hh
        have hne : l' ≠ l := by rintro rfl; simp [upd, Pc.holding] at hh
        exact h2 l' (by simpa [upd, hne] using hh)
    · -- pthread_mutex_lock
      constructor
      · intro m l' hm
        simp only [upd] at hm
        by_cases hmm : m = l / 4
        · simp only [hmm, if_true, Option.some.injEq] at hm
          subst hm
          exact ⟨hl, hmm, by simp [upd, Pc.holding]⟩
        · simp only [hmm, if_false] at hm
          obtain ⟨a, b, c⟩ := h1 m l' hm
          have hne : l' ≠ l := by rintro rfl; exact hmm b
          exact ⟨a, b, by simpa [upd, hne] using c⟩
      · intro l' hh
        by_cases hne : l' = l
        · subst hne; simp [upd]
        · have := h2 l' (by simpa [upd, hne] using hh)
          have hside : l' / 4 ≠ l / 4 := by
            intro e; rw [e, hmx] at this; cases this
          simpa [upd, hside] using this
    · -- GREEN
      constructor
      · intro m l' hm
        obtain ⟨a, b, c⟩ := h1 m l' hm
        refine ⟨a, b, ?_⟩
        by_cases hne : l' = l
        · subst hne; simp [upd, Pc.holding]
        · simpa [upd, hne] using c
      · intro l' hh
        by_cases hne : l' = l
        · subst hne; exact h2 l' (by simp [hpc, Pc.holding])
        · exact h2 l' (by simpa [upd, hne] using hh)
    · -- sleep(CROSS_TIME)
      constructor
      · intro m l' hm
        obtain ⟨a, b, c⟩ := h1 m l' hm
        refine ⟨a, b, ?_⟩
        by_cases hne : l' = l
        · subst hne; simp [upd, Pc.holding]
        · simpa [upd, hne] using c
      · intro l' hh
        by_cases hne : l' = l
        · subst hne; exact h2 l' (by simp [hpc, Pc.holding])
        · exact h2 l' (by simpa [upd, hne] using hh)
    · -- RED
      constructor
      · intro m l' hm
        obtain ⟨a, b, c⟩ := h1 m l' hm
        refine ⟨a, b, ?_⟩
        by_cases hne : l' = l
        · subst hne; simp [upd, Pc.holding]
        · simpa [upd, hne] using c
      · intro l' hh
        by_cases hne : l' = l
        · subst hne; exact h2 l' (by simp [hpc, Pc.holding])
        · exact h2 l' (by simpa [upd, hne] using hh)
    · -- pthread_mutex_unlock
      have hown : s.mutexes (l / 4) = some l := h2 l (by simp [hpc, Pc.holding])
      constructor
      · intro m l' hm
        simp only [upd] at hm
        by_cases hmm : m = l / 4
        · simp [hmm] at hm
        · simp only [hmm, if_false] at hm
          obtain ⟨a, b, c⟩ := h1 m l' hm
          have hne : l' ≠ l := by rintro rfl; exact hmm b
          exact ⟨a, b, by simpa [upd, hne] using c⟩
      · intro l' hh
        have hne : l' ≠ l := by rintro rfl; simp [upd, Pc.holding] at hh
        have := h2 l' (by simpa [upd, hne] using hh)
        have hside : l' / 4 ≠ l / 4 := by
          intro e; rw [e, hown] at this
          exact hne (Option.some.inj this).symm
        simpa [upd, hside] using this


theorem laneTrace_snoc (l l0 : Nat) (a : LaneAct) (tr : List Event) :
    laneTrace l (tr ++ [Event.ctrl l0 a])
      = laneTrace l tr ++ (if l0 = l then [a] else []) := by
  unfold laneTrace
  rw [List.filterMap_append]
  congr 1
  by_cases h : l0 = l <;> simp [List.filterMap_cons, h]

theorem shape_step (l l0 : Nat) (a : LaneAct) (tr : List Event) (k d : Nat) (p q : Pc)
    (h : laneTrace l tr = cycles k ++ cycle.take (if l = l0 then p.done else d))
    (hq : q.done = p.done + 1) (ha : cycle[p.done]? = some a) :
    laneTrace l (tr ++ [Event.ctrl l0 a])
      = cycles k ++ cycle.take (if l = l0 then q.done else d) := by
  rw [laneTrace_snoc, h]
  by_cases e : l = l0
  · subst e
    simp only [if_true, hq, List.append_assoc]
    congr 1
    rw [List.take_succ, ha]
    rfl
  · have e2 : ¬ l0 = l := fun x => e x.symm
    simp [e, e2]

theorem shapeInv_exec (input : List Arrival) (sched : List Thread) :
    ShapeInv (exec input sched) := by
  apply exec_induction input ShapeInv
  · intro l
    exact ⟨by simp [State.start], 0, by simp [State.start, laneTrace, cycles, Pc.done]⟩
  · intro s s' hs hst l
    obtain ⟨_, hp, ht⟩ := stepFeed_frame input s s' hst
    rw [hp, ht]
    exact hs l
  · intro s l0 s' hs hst l
    obtain ⟨hne, k, hk⟩ := hs l
    obtain ⟨_, hc⟩ := stepCtrl_some s s' l0 hst
    have hk2 : ∀ p, s.pc l0 = p →
        laneTrace l s.trace = cycles k ++ cycle.take (if l = l0 then p.done else (s.pc l).done) := by
      intro p hp
      by_cases e : l = l0
      · subst e; simpa [hp] using hk
      · simpa [e] using hk
    have hpc : ∀ q : Pc, (upd s.pc l0 q l).done = if l = l0 then q.done else (s.pc l).done := by
      intro q
      by_cases e : l = l0 <;> simp [upd, e]
    have hret : ∀ q : Pc, q ≠ Pc.ret → upd s.pc l0 q l ≠ Pc.ret := by
      intro q hq
      by_cases e : l = l0 <;> simp [upd, e, hq, hne]
    rcases hc with ⟨h, _, rfl⟩ | ⟨h, _, rfl⟩ | ⟨h, rfl⟩ | ⟨h, rfl⟩ | ⟨h, rfl⟩ | ⟨h, rfl⟩
    · refine ⟨hret _ (by simp), k, ?_⟩
      simp only [hpc]
      exact shape_step l l0 _ _ k _ Pc.semWait Pc.lock (hk2 _ h) rfl rfl
    · refine ⟨hret _ (by simp), k, ?_⟩
      simp only [hpc]
      exact shape_step l l0 _ _ k _ Pc.lock Pc.green (hk2 _ h) rfl rfl
    · refine ⟨hret _ (by simp), k, ?_⟩
      simp only [hpc]
      exact shape_step l l0 _ _ k _ Pc.green Pc.cross (hk2 _ h) rfl rfl
    · refine ⟨hret _ (by simp), k, ?_⟩
      simp only [hpc]
      exact hk2 Pc.cross h
    · refine ⟨hret _ (by simp), k, ?_⟩
      simp only [hpc]
      exact shape_step l l0 _ _ k _ Pc.red Pc.unlock (hk2 _ h) rfl rfl
    · by_cases e : l = l0
      · subst e
        refine ⟨hret _ (by simp), k + 1, ?_⟩
        simp only [hpc, if_true]
        rw [laneTrace_snoc, hk, h]
        simp [cycles, Pc.done, cycle]
      · refine ⟨hret _ (by simp), k, ?_⟩
        have e2 : ¬ l0 = l := fun x => e x.symm
        simp only [hpc]
        rw [laneTrace_snoc]
        simpa [e, e2] using hk


theorem count_laneTrace (l : Nat) (a : LaneAct) (tr : List Event) :
    tr.count (Event.ctrl l a) = (laneTrace l tr).count a := by
  induction tr with
  | nil => rfl
  | cons e tr ih =>
    cases e with
    | sleep n => simpa [laneTrace, List.count_cons] using ih
    | store sd d k x => simpa [laneTrace, List.count_cons] using ih
    | post m => simpa [laneTrace, List.count_cons] using ih
    | ctrl l' a' =>
      unfold laneTrace at ih ⊢
      by_cases e : l' = l
      · subst e
        by_cases e2 : a' = a
        · subst e2; simp [List.count_cons, List.filterMap_cons, ih]
        · simp [List.count_cons, List.filterMap_cons, ih, e2]
      · simp [List.count_cons, List.filterMap_cons, ih, e]

theorem count_cycles (k : Nat) (a : LaneAct) : (cycles k).count a = k := by
  induction k with
  | zero => rfl
  | succ k ih =>
    rw [cycles, List.count_append, ih]
    cases a <;> rfl

/-- In a reachable state the number of calls `a` of lane `l` is the number of
its complete iterations plus the calls `a` of its current iteration. -/
theorem calls_eq (input : List Arrival) (sched : List Thread) (l : Nat) :
    ∃ k, ∀ a, calls l a (exec input sched)
      = k + (cycle.take ((exec input sched).pc l).done).count a := by
  obtain ⟨_, k, hk⟩ := shapeInv_exec input sched l
  refine ⟨k, fun a => ?_⟩
  unfold calls
  rw [count_laneTrace, hk, List.count_append, count_cycles]

/-- A lane is GREEN exactly while its controller is between the GREEN print
and the RED print. -/
theorem isGreen_iff (input : List Arrival) (sched : List Thread) (l : Nat) :
    isGreen (exec input sched) l
      ↔ (exec input sched).pc l = Pc.cross ∨ (exec input sched).pc l = Pc.red := by
  obtain ⟨k, hk⟩ := calls_eq input sched l
  unfold isGreen
  rw [hk, hk]
  cases h : (exec input sched).pc l <;> simp [Pc.done, cycle]

theorem isGreen_owner (input : List Arrival) (sched : List Thread) (l : Nat)
    (h : isGreen (exec input sched) l) : (exec input sched).mutexes (l / 4) = some l := by
  apply (ownerInv_exec input sched).2
  rcases (isGreen_iff input sched l).mp h with e | e <;> simp [e, Pc.holding]


/-! ### Mutual exclusion -/

set_option maxRecDepth 100000 in
/-- For two lanes of different sides, `pairRun` reaches a state in which both
are GREEN. -/
theorem pairRun_green : ∀ i < 16, ∀ j < 16, i / 4 ≠ j / 4 →
    isGreen (exec (pairSchedule i j) (pairRun i j)) i ∧
    isGreen (exec (pairSchedule i j) (pairRun i j)) j ∧
    calls i LaneAct.red (exec (pairSchedule i j) (pairRun i j)) = 0 ∧
    calls j LaneAct.red (exec (pairSchedule i j) (pairRun i j)) = 0 := by
  decide

theorem green_unique_on_side (input : List Arrival) (sched : List Thread) (i j : Nat)
    (hi : isGreen (exec input sched) i) (hj : isGreen (exec input sched) j)
    (hside : i / 4 = j / 4) : i = j := by
  have h1 := isGreen_owner input sched i hi
  have h2 := isGreen_owner input sched j hj
  rw [hside, h2] at h1
  exact (Option.some.inj h1).symm

theorem filter_length_le_one {α : Type} (p : α → Bool) (L : List α) (hn : L.Nodup)
    (hp : ∀ x y, p x = true → p y = true → x = y) : (L.filter p).length ≤ 1 := by
  have hnd : (L.filter p).Nodup := hn.filter p
  match h : L.filter p with
  | [] => simp
  | [_] => simp
  | a :: b :: t =>
    exfalso
    have ha : a ∈ L.filter p := by rw [h]; simp
    have hb : b ∈ L.filter p := by rw [h]; simp
    have hab : a = b := hp a b (List.mem_filter.mp ha).2 (List.mem_filter.mp hb).2
    rw [h, hab] at hnd
    simp at hnd

/-- C1, as the code enforces it: in every reachable state a lane that is GREEN
owns the mutex of its side, so two different lanes of the same side (lane ids
`i` and `j` with `i / 4 = j / 4`) are never GREEN at the same time; lanes of
different sides are not kept apart, and scenario B has a reachable state in
which North-Left and East-Straight are both GREEN. -/
theorem green_phase_safety (input : List Arrival) (sched : List Thread) (i j : Nat)
    (hne : i ≠ j) (hside : i / 4 = j / 4) :
    (isGreen (exec input sched) i → (exec input sched).mutexes (i / 4) = some i) ∧
    ¬ (isGreen (exec input sched) i ∧ isGreen (exec input sched) j) ∧
    ∃ sched2,
      isGreen (exec scenarioB sched2) (laneIdx NORTH LEFT) ∧
      isGreen (exec scenarioB sched2) (laneIdx EAST STRAIGHT) := by
  refine ⟨isGreen_owner input sched i,
    fun h => hne (green_unique_on_side input sched i j h.1 h.2 hside), ?_⟩
  have h := pairRun_green 0 (by decide) 5 (by decide) (by decide)
  exact ⟨pairRun 0 5, h.1, h.2.1⟩

/-- C1 on two lanes of side 0 that both have an arrival: lane 0 is GREEN and
lane 1 is not. -/
theorem green_phase_safety_witness :
    (isGreen (exec (pairSchedule 0 1) (pairRun 0 1)) 0 →
      (exec (pairSchedule 0 1) (pairRun 0 1)).mutexes (0 / 4) = some 0) ∧
    ¬ (isGreen (exec (pairSchedule 0 1) (pairRun 0 1)) 0 ∧
       isGreen (exec (pairSchedule 0 1) (pairRun 0 1)) 1) ∧
    ∃ sched2,
      isGreen (exec scenarioB sched2) (laneIdx NORTH LEFT) ∧
      isGreen (exec scenarioB sched2) (laneIdx EAST STRAIGHT) :=
  green_phase_safety (pairSchedule 0 1) (pairRun 0 1) 0 1 (by decide) (by decide)

/-- C1 as stated fails on scenario B: after `scenarioBRun` the lanes North-Left
and East-Straight are both GREEN, and East-Straight has turned GREEN although
North-Left has never turned RED and never unlocked. -/
theorem scenarioB_both_green :
    isGreen (exec scenarioB scenarioBRun) (laneIdx NORTH LEFT) ∧
    isGreen (exec scenarioB scenarioBRun) (laneIdx EAST STRAIGHT) ∧
    calls (laneIdx NORTH LEFT) LaneAct.red (exec scenarioB scenarioBRun) = 0 ∧
    calls (laneIdx NORTH LEFT) LaneAct.unlock (exec scenarioB scenarioBRun) = 0 := by
  decide

/-- C2: for two different sides `north` and `south` and a direction `straight`,
the schedule with one arrival at time 0 on each of the lanes
`(north, straight)` and `(south, straight)` has an execution that reaches a
state in which both lanes are GREEN: both have printed GREEN and neither has
printed RED. -/
theorem compatible_lanes_concurrent (north south straight : Nat)
    (hn : north < 4) (hs : south < 4) (hd : straight < 4) (hne : north ≠ south) :
    ∃ sched,
      isGreen (exec [⟨north, straight, 0⟩, ⟨south, straight, 0⟩] sched)
        (laneIdx north straight) ∧
      isGreen (exec [⟨north, straight, 0⟩, ⟨south, straight, 0⟩] sched)
        (laneIdx south straight) ∧
      calls (laneIdx north straight) LaneAct.red
        (exec [⟨north, straight, 0⟩, ⟨south, straight, 0⟩] sched) = 0 ∧
      calls (laneIdx south straight) LaneAct.red
        (exec [⟨north, straight, 0⟩, ⟨south, straight, 0⟩] sched) = 0 := by
  have e1 : laneIdx north straight / 4 = north := by unfold laneIdx; omega
  have e2 : laneIdx north straight % 4 = straight := by unfold laneIdx; omega
  have e3 : laneIdx south straight / 4 = south := by unfold laneIdx; omega
  have e4 : laneIdx south straight % 4 = straight := by unfold laneIdx; omega
  have hi : laneIdx north straight < 16 := by unfold laneIdx; omega
  have hj : laneIdx south straight < 16 := by unfold laneIdx; omega
  have hb := pairRun_green _ hi _ hj (by rw [e1, e3]; exact hne)
  simp only [pairSchedule, e1, e2, e3, e4] at hb
  exact ⟨pairRun (laneIdx north straight) (laneIdx south straight), hb⟩

/-- C2 on scenario A of the spec: North-Straight and South-Straight. -/
theorem compatible_lanes_concurrent_witness :
    ∃ sched,
      isGreen (exec [⟨NORTH, STRAIGHT, 0⟩, ⟨SOUTH, STRAIGHT, 0⟩] sched)
        (laneIdx NORTH STRAIGHT) ∧
      isGreen (exec [⟨NORTH, STRAIGHT, 0⟩, ⟨SOUTH, STRAIGHT, 0⟩] sched)
        (laneIdx SOUTH STRAIGHT) ∧
      calls (laneIdx NORTH STRAIGHT) LaneAct.red
        (exec [⟨NORTH, STRAIGHT, 0⟩, ⟨SOUTH, STRAIGHT, 0⟩] sched) = 0 ∧
      calls (laneIdx SOUTH STRAIGHT) LaneAct.red
        (exec [⟨NORTH, STRAIGHT, 0⟩, ⟨SOUTH, STRAIGHT, 0⟩] sched) = 0 :=
  compatible_lanes_concurrent NORTH SOUTH STRAIGHT
    (by decide) (by decide) (by decide) (by decide)

/-- A controller that cannot take the mutex of its side is kept out by a lane
of its own side. -/
theorem lock_blocked_by_own_side (input : List Arrival) (sched : List Thread) (j : Nat)
    (hj : j < 16) (hpc : (exec input sched).pc j = Pc.lock)
    (hb : stepCtrl (exec input sched) j = none) :
    ∃ h, (exec input sched).mutexes (j / 4) = some h ∧ h / 4 = j / 4 ∧ h ≠ j ∧
      ((exec input sched).pc h).holding = true := by
  cases hm : (exec input sched).mutexes (j / 4) with
  | none => simp [stepCtrl, hj, hpc, hm] at hb
  | some h =>
    obtain ⟨_, b, c⟩ := (ownerInv_exec input sched).1 _ _ hm
    refine ⟨h, rfl, b.symm, ?_, c⟩
    rintro rfl
    simp [hpc, Pc.holding] at c

/-- C9: lane `L` is governed by mutex `L / 4`. In every reachable state at most
one lane of each side is GREEN, at most 4 lanes are GREEN, two different lanes
of one side are never GREEN together, and a GREEN lane owns the mutex of its
side. Lanes of different sides do not exclude each other: a controller waiting
for its mutex is kept out only by a lane of its own side, and any two lanes of
different sides can be GREEN together. -/
theorem per_side_exclusion (input : List Arrival) (sched : List Thread) :
    (∀ side, (greenOnSide (exec input sched) side).length ≤ 1) ∧
    (greenLanes (exec input sched)).length ≤ 4 ∧
    (∀ i j, i ≠ j → i / 4 = j / 4 →
      ¬ (isGreen (exec input sched) i ∧ isGreen (exec input sched) j)) ∧
    (∀ l, isGreen (exec input sched) l → (exec input sched).mutexes (l / 4) = some l) ∧
    (∀ j < 16, (exec input sched).pc j = Pc.lock → stepCtrl (exec input sched) j = none →
      ∃ h, (exec input sched).mutexes (j / 4) = some h ∧ h / 4 = j / 4) ∧
    (∀ i < 16, ∀ j < 16, i / 4 ≠ j / 4 →
      ∃ input2 sched2, isGreen (exec input2 sched2) i ∧ isGreen (exec input2 sched2) j) := by
  refine ⟨?_, ?_, ?_, isGreen_owner input sched, ?_, ?_⟩
  · intro side
    apply filter_length_le_one _ _ (List.nodup_range 16)
    intro x y hx hy
    simp only [decide_eq_true_eq] at hx hy
    exact green_unique_on_side input sched x y hx.2 hy.2 (hx.1.trans hy.1.symm)
  · have hnd : ((greenLanes (exec input sched)).map (fun l => l / 4)).Nodup := by
      apply List.Nodup.map_on
      · intro x hx y hy e
        unfold greenLanes at hx hy
        simp only [List.mem_filter, decide_eq_true_eq] at hx hy
        exact green_unique_on_side input sched x y hx.2 hy.2 e
      · exact (List.nodup_range 16).filter _
    have hsub : (greenLanes (exec input sched)).map (fun l => l / 4) ⊆ List.range 4 := by
      intro m hm
      obtain ⟨l, hl, rfl⟩ := List.mem_map.mp hm
      unfold greenLanes at hl
      simp only [List.mem_filter, List.mem_range] at hl
      simp only [List.mem_range]
      omega
    have := (List.subperm_of_subset hnd hsub).length_le
    simpa using this
  · intro i j hne hside h
    exact hne (green_unique_on_side input sched i j h.1 h.2 hside)
  · intro j hj hpc hb
    obtain ⟨h, h1, h2, _⟩ := lock_blocked_by_own_side input sched j hj hpc hb
    exact ⟨h, h1, h2⟩
  · intro i hi j hj hne
    exact ⟨pairSchedule i j, pairRun i j, (pairRun_green i hi j hj hne).1,
      (pairRun_green i hi j hj hne).2.1⟩

/-- C9 in the state in which lanes 0 and 5 are both GREEN. -/
theorem per_side_exclusion_witness :
    (greenLanes (exec (pairSchedule 0 5) (pairRun 0 5))).length ≤ 4 :=
  (per_side_exclusion (pairSchedule 0 5) (pairRun 0 5)).2.1


/-! ### The light cycle of one lane -/

theorem filter_cycles (k : Nat) :
    (cycles k).filter (fun a => a = LaneAct.green ∨ a = LaneAct.red) = altern k := by
  induction k with
  | zero => rfl
  | succ k ih =>
    rw [cycles, List.filter_append, ih]
    rfl

/-- C7: in every reachable state the calls of a lane controller are a
beginning of the repetition of (wait, lock, GREEN, RED, unlock); its light
prints are GREEN, RED, GREEN, RED, ... starting with GREEN; when it prints
GREEN it has printed RED and has unlocked as often as it printed GREEN before;
and when it unlocks it owns the mutex it releases. -/
theorem light_cycle (input : List Arrival) (sched : List Thread) (l : Nat) :
    (∃ n, laneTrace l (exec input sched).trace <+: cycles n) ∧
    (∃ k, lights l (exec input sched).trace
      = altern k ++ (if isGreen (exec input sched) l then [LaneAct.green] else [])) ∧
    (∀ s', stepCtrl (exec input sched) l = some s' →
      s'.trace = (exec input sched).trace ++ [Event.ctrl l LaneAct.green] →
      calls l LaneAct.red (exec input sched) = calls l LaneAct.green (exec input sched) ∧
      calls l LaneAct.unlock (exec input sched) = calls l LaneAct.green (exec input sched)) ∧
    (∀ s', stepCtrl (exec input sched) l = some s' →
      s'.trace = (exec input sched).trace ++ [Event.ctrl l LaneAct.unlock] →
      (exec input sched).mutexes (l / 4) = some l) := by
  obtain ⟨_, k, hk⟩ := shapeInv_exec input sched l
  obtain ⟨k2, hk2⟩ := calls_eq input sched l
  have hg := isGreen_iff input sched l
  refine ⟨⟨k + 1, cycle.drop ((exec input sched).pc l).done, ?_⟩, ?_, ?_, ?_⟩
  · rw [hk, List.append_assoc, List.take_append_drop]; rfl
  · unfold lights
    rw [hk, List.filter_append, filter_cycles]
    cases hpc : (exec input sched).pc l
    · exact ⟨k, by simp [hg, hpc, Pc.done]⟩
    · exact ⟨k, by simp [hg, hpc, Pc.done, cycle]⟩
    · exact ⟨k, by simp [hg, hpc, Pc.done, cycle]⟩
    · exact ⟨k, by simp [hg, hpc, Pc.done, cycle]⟩
    · exact ⟨k, by simp [hg, hpc, Pc.done, cycle]⟩
    · exact ⟨k + 1, by simp [hg, hpc, Pc.done, cycle, altern]⟩
    · exact ⟨k, by simp [hg, hpc, Pc.done]⟩
  · intro s' hst htr
    obtain ⟨_, hc⟩ := stepCtrl_some _ s' l hst
    rcases hc with ⟨h, _, rfl⟩ | ⟨h, _, rfl⟩ | ⟨h, rfl⟩ | ⟨h, rfl⟩ | ⟨h, rfl⟩ | ⟨h, rfl⟩ <;>
      simp at htr
    rw [hk2, hk2, hk2, h]
    simp [Pc.done, cycle]
  · intro s' hst htr
    obtain ⟨_, hc⟩ := stepCtrl_some _ s' l hst
    rcases hc with ⟨h, _, rfl⟩ | ⟨h, _, rfl⟩ | ⟨h, rfl⟩ | ⟨h, rfl⟩ | ⟨h, rfl⟩ | ⟨h, rfl⟩ <;>
      simp at htr
    exact (ownerInv_exec input sched).2 l (by simp [h, Pc.holding])

/-- C7 on scenario C of the spec, two arrivals for one lane: after one full
iteration and the lock of the second the calls of lane 1 are as the cycle says. -/
theorem light_cycle_witness :
    ∃ n, laneTrace 1 (exec [⟨0, 1, 0⟩, ⟨0, 1, 1⟩]
      (List.replicate 6 Thread.feed ++ List.replicate 9 (Thread.light 1))).trace
        <+: cycles n :=
  (light_cycle [⟨0, 1, 0⟩, ⟨0, 1, 1⟩]
    (List.replicate 6 Thread.feed ++ List.replicate 9 (Thread.light 1)) 1).1


/-! ### Locking and blocking -/

theorem holder_not_waiting (input : List Arrival) (sched : List Thread) (m h : Nat)
    (hm : (exec input sched).mutexes m = some h) :
    h < 16 ∧ m = h / 4 ∧
    ((exec input sched).pc h = Pc.green ∨ (exec input sched).pc h = Pc.cross ∨
      (exec input sched).pc h = Pc.red ∨ (exec input sched).pc h = Pc.unlock) := by
  obtain ⟨a, b, c⟩ := (ownerInv_exec input sched).1 m h hm
  refine ⟨a, b, ?_⟩
  cases hpc : (exec input sched).pc h <;> simp [hpc, Pc.holding] at c <;> simp

/-- The owner of a mutex can run, and running it alone for at most four
statements frees the mutex. -/
theorem holder_releases (input : List Arrival) (sched : List Thread) (m h : Nat)
    (hm : (exec input sched).mutexes m = some h) :
    (stepCtrl (exec input sched) h).isSome = true ∧
    ∃ n, n ≤ 4 ∧
      (exec input (sched ++ List.replicate n (Thread.light h))).mutexes m = none := by
  obtain ⟨hl, rfl, hpc⟩ := holder_not_waiting input sched m h hm
  rcases hpc with hpc | hpc | hpc | hpc
  · refine ⟨by simp [stepCtrl, hl, hpc], 4, le_refl _, ?_⟩
    rw [exec_append]
    simp [List.replicate, next, step, stepCtrl, hl, hpc, upd]
  · refine ⟨by simp [stepCtrl, hl, hpc], 3, by omega, ?_⟩
    rw [exec_append]
    simp [List.replicate, next, step, stepCtrl, hl, hpc, upd]
  · refine ⟨by simp [stepCtrl, hl, hpc], 2, by omega, ?_⟩
    rw [exec_append]
    simp [List.replicate, next, step, stepCtrl, hl, hpc, upd]
  · refine ⟨by simp [stepCtrl, hl, hpc], 1, by omega, ?_⟩
    rw [exec_append]
    simp [List.replicate, next, step, stepCtrl, hl, hpc, upd]

/-- C8: in every reachable state a controller owns at most one mutex; the owner
of a mutex is past its `sem_wait` and its lock, so it waits for nothing, can
run, and frees the mutex within four of its own statements; hence the owner of
a mutex some controller waits for is never itself waiting for a mutex, and no
controller is on a cycle of controllers waiting for each other. -/
theorem no_lock_deadlock (input : List Arrival) (sched : List Thread) :
    (∀ m m2 h, (exec input sched).mutexes m = some h →
      (exec input sched).mutexes m2 = some h → m = m2) ∧
    (∀ m h, (exec input sched).mutexes m = some h →
      (exec input sched).pc h ≠ Pc.semWait ∧ (exec input sched).pc h ≠ Pc.lock ∧
      (stepCtrl (exec input sched) h).isSome = true) ∧
    (∀ l h, waitsFor (exec input sched) l h →
      (stepCtrl (exec input sched) h).isSome = true ∧
      ∃ n, n ≤ 4 ∧
        (exec input (sched ++ List.replicate n (Thread.light h))).mutexes (l / 4) = none) ∧
    (∀ l h, waitsFor (exec input sched) l h → ∀ h2, ¬ waitsFor (exec input sched) h h2) ∧
    (∀ l, ¬ Relation.TransGen (waitsFor (exec input sched)) l l) := by
  have hnw : ∀ l h, waitsFor (exec input sched) l h →
      ∀ h2, ¬ waitsFor (exec input sched) h h2 := by
    intro l h ⟨_, _, hm⟩ h2 ⟨_, hpc, _⟩
    obtain ⟨_, _, c⟩ := holder_not_waiting input sched _ h hm
    rw [hpc] at c
    simp at c
  refine ⟨?_, ?_, ?_, hnw, ?_⟩
  · intro m m2 h h1 h2
    rw [(holder_not_waiting input sched m h h1).2.1,
      (holder_not_waiting input sched m2 h h2).2.1]
  · intro m h hm
    obtain ⟨_, _, c⟩ := holder_not_waiting input sched m h hm
    refine ⟨?_, ?_, (holder_releases input sched m h hm).1⟩
    · intro e; rw [e] at c; simp at c
    · intro e; rw [e] at c; simp at c
  · intro l h ⟨_, _, hm⟩
    exact holder_releases input sched _ h hm
  · intro l hc
    obtain ⟨b, hb, hrest⟩ := Relation.TransGen.head'_iff.mp hc
    rcases Relation.ReflTransGen.cases_head hrest with e | ⟨c, hbc, _⟩
    · subst e; exact hnw b b hb b hb
    · exact hnw l b hb c hbc

/-- C8 in a state in which lane 1 waits for the mutex of side 0 that lane 0
owns: lane 0 can run and frees the mutex. -/
theorem no_lock_deadlock_witness :
    (stepCtrl (exec (pairSchedule 0 1) (pairRun 0 1)) 0).isSome = true ∧
    ∃ n, n ≤ 4 ∧
      (exec (pairSchedule 0 1)
        (pairRun 0 1 ++ List.replicate n (Thread.light 0))).mutexes (1 / 4) = none :=
  (no_lock_deadlock (pairSchedule 0 1) (pairRun 0 1)).2.2.1 1 0 (by decide)


/-! ### Termination of the controllers -/

/-- Once the feed has returned, a controller that waits on a semaphore with
value 0 stays there under every continuation of the schedule. -/
theorem blocked_stays (input : List Arrival) (sched more : List Thread) (l : Nat)
    (hf : (exec input sched).fpc = FeedPc.ret)
    (hpc : (exec input sched).pc l = Pc.semWait)
    (hs : (exec input sched).semaphores l = 0) :
    (exec input (sched ++ more)).fpc = FeedPc.ret ∧
    (exec input (sched ++ more)).pc l = Pc.semWait ∧
    (exec input (sched ++ more)).semaphores l = 0 := by
  induction more using List.reverseRecOn with
  | nil => simpa using ⟨hf, hpc, hs⟩
  | append_singleton more th ih =>
    obtain ⟨h1, h2, h3⟩ := ih
    rw [← List.append_assoc, exec_snoc]
    unfold next
    cases hst : step input (exec input (sched ++ more)) th with
    | none => exact ⟨h1, h2, h3⟩
    | some s' =>
      simp only [Option.getD_some]
      cases th with
      | feed =>
        rcases stepFeed_some input _ s' hst with ⟨e, _⟩ | ⟨e, _⟩ | ⟨e, _⟩ | ⟨e, _⟩ <;>
          rw [h1] at e <;> cases e
      | light l0 =>
        obtain ⟨_, hc⟩ := stepCtrl_some _ s' l0 hst
        by_cases e : l = l0
        · subst e
          rcases hc with ⟨h, hp, rfl⟩ | ⟨h, _, rfl⟩ | ⟨h, rfl⟩ | ⟨h, rfl⟩ | ⟨h, rfl⟩ |
            ⟨h, rfl⟩
          · omega
          all_goals (rw [h2] at h; cases h)
        · rcases hc with ⟨h, hp, rfl⟩ | ⟨h, _, rfl⟩ | ⟨h, rfl⟩ | ⟨h, rfl⟩ | ⟨h, rfl⟩ |
            ⟨h, rfl⟩ <;> simp [upd, e, h1, h2, h3]

/-- C5 fails on the code: no controller ever reaches the `return` of
`manage_light`; once the feed has returned, a controller whose semaphore is 0
and that is at its `sem_wait` stays blocked there in every continuation. -/
theorem controller_never_returns (input : List Arrival) (sched more : List Thread) (l : Nat) :
    (exec input sched).pc l ≠ Pc.ret ∧
    ((exec input sched).fpc = FeedPc.ret → (exec input sched).pc l = Pc.semWait →
      (exec input sched).semaphores l = 0 →
      (exec input (sched ++ more)).pc l = Pc.semWait ∧
      stepCtrl (exec input (sched ++ more)) l = none) := by
  refine ⟨(shapeInv_exec input sched l).1, fun hf hpc hs => ?_⟩
  obtain ⟨_, h2, h3⟩ := blocked_stays input sched more l hf hpc hs
  refine ⟨h2, ?_⟩
  unfold stepCtrl
  by_cases hl : l < 16
  · simp [hl, h2, laneIdx_div_mod, h3]
  · simp [hl]

/-- C5 at the failing input: the feed has delivered the only arrival and has
returned, lane 0 has crossed once and has no pending arrival, and its
controller is blocked in `sem_wait` after any further five statements of its
own instead of returning. -/
theorem controller_never_returns_witness :
    (exec oneArrival oneArrivalRun).fpc = FeedPc.ret ∧
    calls 0 LaneAct.unlock (exec oneArrival oneArrivalRun) = 1 ∧
    (exec oneArrival oneArrivalRun).semaphores 0 = 0 ∧
    (exec oneArrival (oneArrivalRun ++ List.replicate 5 (Thread.light 0))).pc 0
      = Pc.semWait ∧
    stepCtrl (exec oneArrival (oneArrivalRun ++ List.replicate 5 (Thread.light 0))) 0
      = none :=
  ⟨by decide, by decide, by decide,
    (controller_never_returns oneArrival oneArrivalRun
      (List.replicate 5 (Thread.light 0)) 0).2 (by decide) (by decide) (by decide)⟩


/-! ### Signals and crossings -/

theorem semInv_exec (input : List Arrival) (sched : List Thread) :
    SemInv (exec input sched) := by
  apply exec_induction input SemInv
  · intro l; simp [calls, posts, State.start]
  · intro s s' hs hst l
    have := hs l
    rcases stepFeed_some input s s' hst with ⟨_, a, _, rfl⟩ | ⟨_, _, rfl⟩ | ⟨_, a, _, rfl⟩ |
      ⟨_, a, _, rfl⟩
    · simpa [calls, posts, feedSleep, List.count_append] using this
    · simpa [calls, posts] using this
    · simpa [calls, posts, feedStore, List.count_append] using this
    · unfold calls posts at this ⊢
      by_cases e : laneIdx a.side a.direction = l
      · simp [feedPost, List.count_append, upd, e]
        omega
      · have e2 : ¬ l = laneIdx a.side a.direction := fun x => e x.symm
        simp [feedPost, List.count_append, upd, e, e2]
        omega
  · intro s l0 s' hs hst l
    have := hs l
    obtain ⟨_, hc⟩ := stepCtrl_some s s' l0 hst
    unfold calls posts at this ⊢
    rcases hc with ⟨h, hp, rfl⟩ | ⟨h, _, rfl⟩ | ⟨h, rfl⟩ | ⟨h, rfl⟩ | ⟨h, rfl⟩ | ⟨h, rfl⟩
    · by_cases e : l0 = l
      · subst e
        simp [List.count_append, upd]
        omega
      · have e2 : ¬ l = l0 := fun x => e x.symm
        simp [List.count_append, upd, e, e2]
        omega
    all_goals (simp [List.count_append]; omega)


theorem feedInv_exec (input : List Arrival) (sched : List Thread) :
    FeedInv input (exec input sched) := by
  apply exec_induction input (FeedInv input)
  · refine ⟨Nat.zero_le _, ?_, ?_, ?_⟩
    · intro h; simp [State.start] at h
    · intro l; simp [posts, State.start, arrivalsFor]
    · intro l; simp [stored, posts, State.start, storeIdx]
  · intro s s' ⟨h1, h2, h3, h4⟩ hst
    rcases stepFeed_some input s s' hst with ⟨hp, a, ha, rfl⟩ | ⟨hp, ha, rfl⟩ |
      ⟨hp, a, ha, rfl⟩ | ⟨hp, a, ha, rfl⟩
    · refine ⟨h1, ?_, ?_, ?_⟩
      · intro h; simp [feedSleep] at h
      · intro l
        have := h3 l
        simpa [posts, feedSleep, List.count_append] using this
      · intro l
        have := h4 l
        simp only [hp] at this
        simpa [stored, posts, feedSleep, List.count_append, storeIdx,
          List.filterMap_append] using this
    · refine ⟨h1, ?_, ?_, ?_⟩
      · intro _
        have := List.getElem?_eq_none_iff.mp ha
        simp only at this ⊢
        omega
      · intro l; simpa [posts] using h3 l
      · intro l
        have := h4 l
        simp only [hp] at this
        simpa [stored, posts] using this
    · refine ⟨h1, ?_, ?_, ?_⟩
      · intro h; simp [feedStore] at h
      · intro l
        have := h3 l
        simpa [posts, feedStore, List.count_append] using this
      · intro l
        have := h4 l
        simp only [hp] at this
        unfold stored posts at this ⊢
        by_cases e : laneOf a = l
        · simp [feedStore, storeIdx, List.filterMap_append, List.count_append, ha, e,
            List.countP_append] at this ⊢
          unfold laneOf at e
          simp [e]
          omega
        · simp [feedStore, storeIdx, List.filterMap_append, List.count_append, ha, e,
            List.countP_append] at this ⊢
          unfold laneOf at e
          simp [e]
          omega
    · have hlt : s.i < input.length := by
        by_contra hc
        rw [List.getElem?_eq_none (by omega)] at ha
        cases ha
      refine ⟨?_, ?_, ?_, ?_⟩
      · simp only [feedPost]; omega
      · intro h; simp [feedPost] at h
      · intro l
        have := h3 l
        unfold posts at this ⊢
        simp only [feedPost, List.take_succ, ha, Option.toList, arrivalsFor,
          List.filter_append, List.length_append, List.count_append]
        unfold arrivalsFor at this
        rw [this]
        by_cases e : laneOf a = l
        · have e3 : laneIdx a.side a.direction = l := e
          simp [e, e3]
        · have e3 : ¬ laneIdx a.side a.direction = l := e
          have e4 : ¬ l = laneIdx a.side a.direction := fun x => e x.symm
          simp [e, e3, e4, List.count_singleton]
      · intro l
        have := h4 l
        have h5 := h3 l
        unfold stored posts at this ⊢
        unfold posts at h5
        simp only [hp, ha, true_and, Option.map_some', Option.some.injEq] at this
        by_cases e : laneOf a = l
        · have e3 : laneIdx a.side a.direction = l := e
          simp [feedPost, storeIdx, List.filterMap_append, List.count_append, e, e3]
            at this ⊢
          simpa [storeIdx] using this
        · have e3 : ¬ laneIdx a.side a.direction = l := e
          have e4 : ¬ l = laneIdx a.side a.direction := fun x => e x.symm
          simp [feedPost, storeIdx, List.filterMap_append, List.count_append, e, e3, e4,
            List.count_singleton] at this ⊢
          simpa [storeIdx] using this
  · intro s l0 s' ⟨h1, h2, h3, h4⟩ hst
    obtain ⟨_, hc⟩ := stepCtrl_some s s' l0 hst
    rcases hc with ⟨h, hp, rfl⟩ | ⟨h, _, rfl⟩ | ⟨h, rfl⟩ | ⟨h, rfl⟩ | ⟨h, rfl⟩ | ⟨h, rfl⟩ <;>
    · refine ⟨h1, h2, ?_, ?_⟩
      · intro l
        have := h3 l
        simpa [posts, List.count_append] using this
      · intro l
        have := h4 l
        simpa [stored, posts, List.count_append, storeIdx, List.filterMap_append] using this


theorem green_le_wait (input : List Arrival) (sched : List Thread) (l : Nat) :
    calls l LaneAct.green (exec input sched) ≤ calls l LaneAct.wait (exec input sched) := by
  obtain ⟨k, hk⟩ := calls_eq input sched l
  rw [hk, hk]
  cases (exec input sched).pc l <;> simp [Pc.done, cycle]

theorem numInv_exec (input : List Arrival) (sched : List Thread) :
    NumInv (exec input sched) := by
  apply exec_induction input NumInv
  · intro l; simp [stored, State.start, storeIdx]
  · intro s s' hs hst l
    have := hs l
    unfold stored at this ⊢
    rcases stepFeed_some input s s' hst with ⟨_, a, _, rfl⟩ | ⟨_, _, rfl⟩ | ⟨_, a, _, rfl⟩ |
      ⟨_, a, _, rfl⟩
    · simpa [feedSleep, storeIdx, List.filterMap_append] using this
    · simpa using this
    · by_cases e : laneIdx a.side a.direction = l
      · subst e
        simp [feedStore, storeIdx, List.filterMap_append, upd] at this ⊢
        omega
      · have e2 : ¬ l = laneIdx a.side a.direction := fun x => e x.symm
        simp [feedStore, storeIdx, List.filterMap_append, upd, e, e2] at this ⊢
        exact this
    · simpa [feedPost, storeIdx, List.filterMap_append] using this
  · intro s l0 s' hs hst l
    have := hs l
    unfold stored at this ⊢
    obtain ⟨_, hc⟩ := stepCtrl_some s s' l0 hst
    rcases hc with ⟨h, hp, rfl⟩ | ⟨h, _, rfl⟩ | ⟨h, rfl⟩ | ⟨h, rfl⟩ | ⟨h, rfl⟩ | ⟨h, rfl⟩ <;>
      simpa [storeIdx, List.filterMap_append] using this

theorem arrivalsFor_eq (input : List Arrival)
    (hwf : ∀ a ∈ input, a.side < 4 ∧ a.direction < 4) (s d : Nat) (hd : d < 4) :
    arrivalsFor (laneIdx s d) input = laneArrivals s d input := by
  unfold arrivalsFor laneArrivals
  apply List.filter_congr
  intro a ha
  have hb := hwf a ha
  have := laneIdx_inj a.side a.direction s d hb.2 hd
  simp only [laneOf, onLane, this, Bool.decide_and]

/-- For a schedule that fits the storage, no reachable state has gone through
an out-of-bounds access. -/
theorem ub_free (input : List Arrival)
    (hwf : ∀ a ∈ input, a.side < 4 ∧ a.direction < 4)
    (hcap : ∀ s < 4, ∀ d < 4, (laneArrivals s d input).length ≤ 20)
    (sched : List Thread) : (exec input sched).ub = false := by
  induction sched using List.reverseRecOn with
  | nil => rfl
  | append_singleton sched th ih =>
    rw [exec_snoc]
    unfold next
    cases hst : step input (exec input sched) th with
    | none => simpa using ih
    | some s' =>
      simp only [Option.getD_some]
      cases th with
      | feed =>
        obtain ⟨_, _, f3, f4⟩ := feedInv_exec input sched
        have hnum := numInv_exec input sched
        rcases stepFeed_some input _ s' hst with ⟨_, a, _, rfl⟩ | ⟨_, _, rfl⟩ |
          ⟨hp, a, ha, rfl⟩ | ⟨_, a, ha, rfl⟩
        · simpa [feedSleep] using ih
        · simpa using ih
        · have hb := hwf a (List.getElem?_mem ha)
          have hk : (exec input sched).num_curr_arrivals (laneIdx a.side a.direction)
              = (arrivalsFor (laneIdx a.side a.direction)
                  (input.take (exec input sched).i)).length := by
            rw [hnum, f4, f3]; simp [hp]
          have hsub : (arrivalsFor (laneIdx a.side a.direction)
                (input.take ((exec input sched).i + 1))).length
              ≤ (arrivalsFor (laneIdx a.side a.direction) input).length :=
            ((List.take_sublist _ input).filter _).length_le
          rw [take_succ_snoc input _ a ha, arrivalsFor_eq input hwf _ _ hb.2] at hsub
          have hc := hcap a.side hb.1 a.direction hb.2
          simp only [arrivalsFor, List.filter_append, List.length_append] at hsub
          have h1 : (List.filter (fun x => decide (laneOf x = laneIdx a.side a.direction))
              [a]).length = 1 := by simp [laneOf]
          rw [h1] at hsub
          unfold arrivalsFor at hk
          simp only [feedStore, ih, Bool.false_or, Bool.not_eq_false', inBounds, hb.1, hb.2,
            decide_True, Bool.true_and, decide_eq_true_eq]
          omega
        · have hb := hwf a (List.getElem?_mem ha)
          simp [feedPost, ih, hb.1, hb.2]
      | light l0 =>
        obtain ⟨_, hc⟩ := stepCtrl_some _ s' l0 hst
        rcases hc with ⟨h, hp, rfl⟩ | ⟨h, _, rfl⟩ | ⟨h, rfl⟩ | ⟨h, rfl⟩ | ⟨h, rfl⟩ |
          ⟨h, rfl⟩ <;> exact ih

/-- C4, for the schedules the storage is made for: if every side and direction
is in 0..3 and no lane has more than 20 arrivals, then in every reachable
state no access has been out of bounds and, for every lane `l`: the completed
`sem_wait` calls of its controller plus the value of its semaphore equal the
posts of the feed on that semaphore; the feed has posted once per arrival it
counted in `num_curr_arrivals` (one post is outstanding exactly between a
store and its post, and after the feed has returned both numbers are the
number of schedule entries of the lane); the lane has started at most as many
crossings as arrivals were stored; a controller facing a semaphore value 0 at
its `sem_wait` has completed exactly as many crossings as there were posts,
and with a positive value it can run. -/
theorem no_lost_signals (input : List Arrival)
    (hwf : ∀ a ∈ input, a.side < 4 ∧ a.direction < 4)
    (hcap : ∀ s < 4, ∀ d < 4, (laneArrivals s d input).length ≤ 20)
    (sched : List Thread) (l : Nat) :
    Accounted (exec input sched) l ∧
    (exec input sched).num_curr_arrivals l = stored l (exec input sched) ∧
    ((exec input sched).fpc ≠ FeedPc.post →
      (exec input sched).num_curr_arrivals l = posts l (exec input sched)) ∧
    ((exec input sched).fpc = FeedPc.ret →
      posts l (exec input sched) = (arrivalsFor l input).length ∧
      (exec input sched).num_curr_arrivals l = (arrivalsFor l input).length) ∧
    ((exec input sched).pc l = Pc.semWait → (exec input sched).semaphores l = 0 →
      calls l LaneAct.green (exec input sched) = posts l (exec input sched) ∧
      calls l LaneAct.unlock (exec input sched) = posts l (exec input sched)) ∧
    (l < 16 → (exec input sched).pc l = Pc.semWait → 0 < (exec input sched).semaphores l →
      (stepCtrl (exec input sched) l).isSome = true) := by
  have hub := ub_free input hwf hcap sched
  have hsem := semInv_exec input sched l
  have hnum := numInv_exec input sched l
  obtain ⟨_, f2, f3, f4⟩ := feedInv_exec input sched
  have f3l := f3 l
  have f4l := f4 l
  rw [← hnum] at f4l
  have hgw := green_le_wait input sched l
  have hle : posts l (exec input sched) ≤ (exec input sched).num_curr_arrivals l := by
    rw [f4l]; omega
  refine ⟨⟨hub, hsem, hle, ?_, ?_⟩, hnum, ?_, ?_, ?_, ?_⟩
  · rw [f4l]; split <;> omega
  · omega
  · intro hne
    rw [f4l]; simp [hne]
  · intro hret
    have hp : posts l (exec input sched) = (arrivalsFor l input).length := by
      rw [f3l, f2 hret, List.take_length]
    refine ⟨hp, ?_⟩
    rw [f4l, hp]; simp [hret]
  · intro hpc hs
    obtain ⟨k, hk⟩ := calls_eq input sched l
    rw [hk, hpc] at hsem
    rw [hk, hk, hpc, ← hsem, hs]
    simp [Pc.done]
  · intro hl hpc hs
    simp [stepCtrl, hl, hpc, laneIdx_div_mod, hs]

/-- C4 on a burst: three arrivals for lane 0 are signalled before its
controller runs; when the controller then faces the semaphore value 0 it has
completed exactly three crossings. -/
theorem no_lost_signals_witness :
    Accounted (exec (sameLane 0 0 3) burstRun) 0 ∧
    calls 0 LaneAct.green (exec (sameLane 0 0 3) burstRun)
      = posts 0 (exec (sameLane 0 0 3) burstRun) ∧
    calls 0 LaneAct.unlock (exec (sameLane 0 0 3) burstRun)
      = posts 0 (exec (sameLane 0 0 3) burstRun) ∧
    posts 0 (exec (sameLane 0 0 3) burstRun) = 3 :=
  ⟨(no_lost_signals (sameLane 0 0 3) (by decide) (by decide) burstRun 0).1,
    ((no_lost_signals (sameLane 0 0 3) (by decide) (by decide) burstRun 0).2.2.2.2.1
      (by decide) (by decide)).1,
    ((no_lost_signals (sameLane 0 0 3) (by decide) (by decide) burstRun 0).2.2.2.2.1
      (by decide) (by decide)).2,
    by decide⟩

set_option maxRecDepth 100000 in
/-- C4 as stated fails on 21 arrivals for lane (3, 3): the store of the 21st
arrival writes cell 320 of `curr_arrivals`, which has the cells 0..319, so the
reachable state after it is not accounted for any lane. -/
theorem overflow_not_accounted :
    (exec (sameLane 3 3 21) overflowRun).curr_arrivals (4 * 4 * 20) = ⟨3, 3, 0⟩ ∧
    slotIdx 3 3 20 = 4 * 4 * 20 ∧
    (exec (sameLane 3 3 21) overflowRun).ub = true ∧
    ¬ Accounted (exec (sameLane 3 3 21) overflowRun) 0 := by
  refine ⟨by decide, by decide, by decide, fun h => ?_⟩
  have : (exec (sameLane 3 3 21) overflowRun).ub = true := by decide
  rw [h.1] at this
  cases this

/-! ### The feed thread and `supply_arrivals` -/

theorem foldl_feed_pos (l : List Arrival) :
    (l.foldl feedIter State.start).i = l.length ∧
    (l.foldl feedIter State.start).fpc = FeedPc.loop := by
  induction l using List.reverseRecOn with
  | nil => exact ⟨rfl, rfl⟩
  | append_singleton l a ih =>
    rw [foldl_snoc]
    simp [feedIter, feedPost, feedStore, feedSleep, ih.1]

theorem feed_thread_iter (input : List Arrival) (s : State) (a : Arrival)
    (hpc : s.fpc = FeedPc.loop) (ha : input[s.i]? = some a) :
    [Thread.feed, Thread.feed, Thread.feed].foldl (next input) s = feedIter s a := by
  simp [next, step, stepFeed, hpc, ha, feedIter, feedSleep, feedStore, feedPost]

theorem exec_feed_steps (pre post : List Arrival) :
    exec (pre ++ post) (List.replicate (3 * pre.length) Thread.feed)
      = pre.foldl feedIter State.start := by
  induction pre using List.reverseRecOn generalizing post with
  | nil => rfl
  | append_singleton l a ih =>
    have e : 3 * (l ++ [a]).length = 3 * l.length + 3 := by simp; omega
    have e2 : List.replicate (3 * l.length + 3) Thread.feed
        = List.replicate (3 * l.length) Thread.feed
          ++ [Thread.feed, Thread.feed, Thread.feed] := by
      rw [List.replicate_add]; rfl
    have e3 : l ++ [a] ++ post = l ++ (a :: post) := by simp
    rw [e, e2, exec_append, e3, ih (a :: post), foldl_snoc]
    obtain ⟨hi, hp⟩ := foldl_feed_pos l
    apply feed_thread_iter _ _ _ hp
    rw [hi, List.getElem?_append_right (le_refl _)]
    simp

/-- The feed thread, scheduled on its own until it returns, computes
`supply_arrivals`. -/
theorem exec_feed_alone (input : List Arrival) :
    exec input (List.replicate (3 * input.length + 1) Thread.feed)
      = supply_arrivals input State.start := by
  have h := exec_feed_steps input []
  rw [List.append_nil] at h
  have e : List.replicate (3 * input.length + 1) Thread.feed
      = List.replicate (3 * input.length) Thread.feed ++ [Thread.feed] := by
    rw [List.replicate_add]; rfl
  rw [e, exec_snoc, h]
  obtain ⟨hi, hp⟩ := foldl_feed_pos input
  simp [next, step, stepFeed, hp, hi, supply_arrivals]

end Intersection
